import Mathlib

/-!
# Verification of the ferretin resolution and search engine

Shallow embedding of the core of the `jbr/ferretin` repository (the
`ferritin-common` crate plus the `ferretin` CLI search display loop), with
theorems settling the specification claims about it.

Strings are embedded as `List Char` (named `Str` below): the Rust code
compares strings character by character (`str::chars`) or byte by byte
(`str::bytes`), and both views are modelled explicitly.  Maps
(`std::collections::HashMap`) are embedded as association lists whose
insert prepends, so that lookup (which scans from the front) sees the most
recent insertion first — the same override semantics as `HashMap::insert`.
Functions named after source items (`eq_ignoring_dash_underscore`,
`kind_discriminator`, `build_path_index`, `discriminated_path`, …) are
translated from `src/ferritin-common/src/*.rs` and `src/ferretin/src/main.rs`;
definitions whose doc comment starts with `Modelled from the spec:` stand in
for code of the repository that is not available under `src/` (the
`navigator.rs` and `search/indexer.rs` modules, of which only callers,
declarations and tests are present).
-/

namespace Ferritin

/-- Embedded strings: a Rust `String` / `&str` as its list of characters. -/
abbrev Str := List Char

/-- Shorthand to write an embedded string from a Lean string literal. -/
def str (s : String) : Str := s.data

/-! ## Package identity (`src/ferritin-common/src/crate_name.rs`) -/

/-- Character-by-character comparison of two strings in which `-` and `_` are
interchangeable; translation of the free function
`eq_ignoring_dash_underscore` (crate_name.rs lines 90-101).  The Rust loop
first matches the dash/underscore swap, then equal characters, then
simultaneous exhaustion; any other combination yields `false`. -/
def eq_ignoring_dash_underscore : Str → Str → Bool
  | [], [] => true
  | a :: as_, b :: bs =>
    if (a = '_' ∧ b = '-') ∨ (a = '-' ∧ b = '_') then eq_ignoring_dash_underscore as_ bs
    else if a = b then eq_ignoring_dash_underscore as_ bs
    else false
  | _, _ => false

/-- Normalisation of a single character used to express separator
insensitivity abstractly: dash becomes underscore, all else is unchanged. -/
def normSep (c : Char) : Char := if c = '-' then '_' else c

theorem normSep_eq_iff (a b : Char) :
    normSep a = normSep b ↔ (a = b ∨ (a = '-' ∧ b = '_') ∨ (a = '_' ∧ b = '-')) := by
  constructor
  · intro h
    by_cases ha : a = '-' <;> by_cases hb : b = '-'
    · exact Or.inl (ha.trans hb.symm)
    · rw [normSep, if_pos ha, normSep, if_neg hb] at h
      exact Or.inr (Or.inl ⟨ha, h.symm⟩)
    · rw [normSep, if_neg ha, normSep, if_pos hb] at h
      exact Or.inr (Or.inr ⟨h, hb⟩)
    · rw [normSep, if_neg ha, normSep, if_neg hb] at h
      exact Or.inl h
  · intro h
    rcases h with h | ⟨h1, h2⟩ | ⟨h1, h2⟩
    · rw [h]
    · subst h1
      subst h2
      decide
    · subst h1
      subst h2
      decide

theorem eq_ignoring_dash_underscore_iff (a b : Str) :
    eq_ignoring_dash_underscore a b = true ↔ a.map normSep = b.map normSep := by
  induction a generalizing b with
  | nil => cases b <;> simp [eq_ignoring_dash_underscore]
  | cons x xs ih =>
    cases b with
    | nil => simp [eq_ignoring_dash_underscore]
    | cons y ys =>
      simp only [eq_ignoring_dash_underscore, List.map_cons, List.cons.injEq]
      rw [normSep_eq_iff]
      by_cases hswap : (x = '_' ∧ y = '-') ∨ (x = '-' ∧ y = '_')
      · rw [if_pos hswap, ih]
        have hx : x = y ∨ (x = '-' ∧ y = '_') ∨ (x = '_' ∧ y = '-') := by
          rcases hswap with h | h
          · exact Or.inr (Or.inr h)
          · exact Or.inr (Or.inl h)
        exact ⟨fun h => ⟨hx, h⟩, fun h => h.2⟩
      · by_cases heq : x = y
        · rw [if_neg hswap, if_pos heq, ih]
          exact ⟨fun h => ⟨Or.inl heq, h⟩, fun h => h.2⟩
        · rw [if_neg hswap, if_neg heq]
          constructor
          · intro h
            exact absurd h (by simp)
          · rintro ⟨hc, -⟩
            rcases hc with hc | hc | hc
            · exact absurd hc heq
            · exact absurd (Or.inr hc) hswap
            · exact absurd (Or.inl hc) hswap

theorem eq_ignoring_dash_underscore_refl (a : Str) :
    eq_ignoring_dash_underscore a a = true :=
  (eq_ignoring_dash_underscore_iff a a).mpr rfl

/-- UTF-8 encoding of a single character as its byte values, used to model
`str::bytes` in the `Hash` implementation. -/
def utf8Bytes (c : Char) : List Nat :=
  let v := c.toNat
  if v < 128 then [v]
  else if v < 2048 then [192 + v / 64, 128 + v % 64]
  else if v < 65536 then [224 + v / 4096, 128 + v / 64 % 64, 128 + v % 64]
  else [240 + v / 262144, 128 + v / 4096 % 64, 128 + v / 64 % 64, 128 + v % 64]

/-- The byte stream written to the hasher state by `impl Hash for CrateName`
(crate_name.rs lines 30-40): every byte of the string is written in order,
with byte 45 (`-`) replaced by byte 95 (`_`). -/
def crateNameHashBytes (s : Str) : List Nat :=
  (s.flatMap utf8Bytes).map fun b => if b = 45 then 95 else b

theorem utf8Bytes_map_norm (c : Char) :
    (utf8Bytes c).map (fun b => if b = 45 then 95 else b) = utf8Bytes (normSep c) := by
  by_cases hc : c = '-'
  · subst hc
    decide
  · have hne : c.toNat ≠ 45 := by
      intro h
      apply hc
      have h2 := Char.ofNat_toNat c
      rw [h] at h2
      rw [← h2]
    have hnorm : normSep c = c := by simp [normSep, hc]
    rw [hnorm]
    unfold utf8Bytes
    by_cases h1 : c.toNat < 128
    · simp only [h1, if_pos, if_true, List.map_cons, List.map_nil]
      rw [if_neg hne]
    · by_cases h2 : c.toNat < 2048
      · simp only [h1, h2, if_neg, if_pos, if_false, if_true, List.map_cons, List.map_nil]
        rw [if_neg (by omega), if_neg (by omega)]
      · by_cases h3 : c.toNat < 65536
        · simp only [h1, h2, h3, if_neg, if_pos, if_false, if_true, List.map_cons, List.map_nil]
          rw [if_neg (by omega), if_neg (by omega), if_neg (by omega)]
        · simp only [h1, h2, h3, if_neg, if_false, List.map_cons, List.map_nil]
          rw [if_neg (by omega), if_neg (by omega), if_neg (by omega), if_neg (by omega)]

theorem crateNameHashBytes_eq_of_normSep {a b : Str} (h : a.map normSep = b.map normSep) :
    crateNameHashBytes a = crateNameHashBytes b := by
  have key : ∀ s : Str,
      (s.flatMap utf8Bytes).map (fun b => if b = 45 then 95 else b) =
        (s.map normSep).flatMap utf8Bytes := by
    intro s
    induction s with
    | nil => rfl
    | cons x xs ih =>
      simp only [List.flatMap_cons, List.map_append, List.map_cons, ih, utf8Bytes_map_norm]
  unfold crateNameHashBytes
  rw [key, key, h]

/-- Lexicographic comparison of two strings by Unicode scalar value: the
ordering `str` provides in Rust, and hence the ordering produced by
`#[derive(Ord)]` on `CrateName` (crate_name.rs line 9). -/
def strCmp : Str → Str → Ordering
  | [], [] => .eq
  | [], _ :: _ => .lt
  | _ :: _, [] => .gt
  | a :: as_, b :: bs => if a < b then .lt else if b < a then .gt else strCmp as_ bs

/-- `Ord::cmp` for `CrateName`: the derived implementation compares the
underlying strings directly, with no separator handling. -/
def crateNameCmp (a b : Str) : Ordering := strCmp a b

/-- `PartialOrd::partial_cmp` for `CrateName` (crate_name.rs lines 80-87):
`Equal` when the strings are equal ignoring dash/underscore, otherwise the
ordinary string comparison. -/
def crateNamePartialCmp (a b : Str) : Option Ordering :=
  if eq_ignoring_dash_underscore a b then some .eq else some (strCmp a b)

theorem strCmp_eq_iff (a b : Str) : strCmp a b = .eq ↔ a = b := by
  induction a generalizing b with
  | nil => cases b <;> simp [strCmp]
  | cons x xs ih =>
    cases b with
    | nil => simp [strCmp]
    | cons y ys =>
      simp only [strCmp]
      by_cases h1 : x < y
      · simp only [if_pos h1]
        constructor
        · intro h
          exact absurd h (by simp)
        · intro h
          exact absurd (List.cons.inj h).1 (ne_of_lt h1)
      · by_cases h2 : y < x
        · simp only [if_neg h1, if_pos h2]
          constructor
          · intro h
            exact absurd h (by simp)
          · intro h
            exact absurd (List.cons.inj h).1 (ne_of_gt h2)
        · have hxy : x = y := le_antisymm (not_lt.mp h2) (not_lt.mp h1)
          simp [if_neg h1, if_neg h2, ih, hxy]

/-! ## Item kinds and discriminators
(`src/ferritin-common/src/rustdoc_data.rs`) -/

/-- The item kinds of the rustdoc export format (`rustdoc_types::ItemKind`),
as matched by `kind_discriminator`. -/
inductive ItemKind
  | Module | ExternCrate | Use | Union | Struct | StructField | Enum | Variant
  | Function | Trait | TraitAlias | Impl | TypeAlias | Constant | Static
  | ExternType | ProcAttribute | ProcDerive | MacroItem | Primitive
  | AssocConst | AssocType | Keyword | Attribute
  deriving DecidableEq, Repr

/-- Translation of `kind_discriminator` (rustdoc_data.rs lines 169-192): the
rustdoc intra-doc-link disambiguator prefix for each item kind.  `Constant`
and `AssocConst` share `"const"`; `ExternCrate`, `Use`, `Impl` and
`ExternType` share `"item"`. -/
def kind_discriminator : ItemKind → Str
  | .Module => str "mod"
  | .Struct => str "struct"
  | .Enum => str "enum"
  | .Union => str "union"
  | .Trait => str "trait"
  | .TraitAlias => str "traitalias"
  | .Function => str "fn"
  | .TypeAlias => str "tyalias"
  | .AssocType => str "type"
  | .Constant => str "const"
  | .AssocConst => str "const"
  | .Static => str "static"
  | .MacroItem => str "macro"
  | .ProcAttribute => str "attr"
  | .ProcDerive => str "derive"
  | .Primitive => str "prim"
  | .Variant => str "variant"
  | .StructField => str "field"
  | .Keyword => str "keyword"
  | .Attribute => str "attribute"
  | .ExternCrate => str "item"
  | .Use => str "item"
  | .Impl => str "item"
  | .ExternType => str "item"

/-! ## Claim C3 -/

/-- C3: Separator insensitivity of package identity.  Two strings compare
equal under `CrateName`'s `PartialEq` exactly when they agree after mapping
`-` to `_` (so strings differing only by interchanged separators are equal,
and strings differing in any other character — including by case — are
unequal), and any two strings that are equal in this sense write identical
byte streams to the hasher, so they collide in any map keyed by the
identity. -/
theorem crate_name_separator_insensitive (a b : Str) :
    (eq_ignoring_dash_underscore a b = true ↔ a.map normSep = b.map normSep) ∧
    (a.map normSep = b.map normSep → crateNameHashBytes a = crateNameHashBytes b) :=
  ⟨eq_ignoring_dash_underscore_iff a b, fun h => crateNameHashBytes_eq_of_normSep h⟩

/-- Witness for C3 at `"foo-bar"` / `"foo_bar"`. -/
theorem crate_name_separator_insensitive_witness :
    eq_ignoring_dash_underscore (str "foo-bar") (str "foo_bar") = true ∧
    crateNameHashBytes (str "foo-bar") = crateNameHashBytes (str "foo_bar") :=
  ⟨(crate_name_separator_insensitive (str "foo-bar") (str "foo_bar")).1.mpr (by decide),
   (crate_name_separator_insensitive (str "foo-bar") (str "foo_bar")).2 (by decide)⟩

/-! ## Claim C6 -/

/-- C6 counterexample: on `"foo-bar"` vs `"foo_bar"`, the hand-written
`PartialOrd` returns `Some(Equal)` while the derived `Ord` returns `Less`
(plain string order: `-` is byte 45, `_` is byte 95), so the total order
does not agree with the partial order on every pair, contrary to the
claim. -/
theorem crate_name_cmp_disagrees_on_separators :
    crateNamePartialCmp (str "foo-bar") (str "foo_bar") = some .eq ∧
    crateNameCmp (str "foo-bar") (str "foo_bar") = .lt := by
  constructor
  · have h : eq_ignoring_dash_underscore (str "foo-bar") (str "foo_bar") = true := by decide
    simp [crateNamePartialCmp, h]
  · decide

/-- C6 (amended): `partial_cmp` yields `Equal` whenever the two strings are
equal ignoring dash/underscore separators and otherwise yields the ordinary
string order, while the derived `Ord::cmp` is always the ordinary string
order; the two disagree exactly on pairs that are equal ignoring separators
without being identical. -/
theorem crate_name_partialCmp_spec (a b : Str) :
    (eq_ignoring_dash_underscore a b = true → crateNamePartialCmp a b = some .eq) ∧
    (eq_ignoring_dash_underscore a b = false →
      crateNamePartialCmp a b = some (strCmp a b)) ∧
    (crateNameCmp a b = strCmp a b) ∧
    (crateNamePartialCmp a b ≠ some (crateNameCmp a b) ↔
      (eq_ignoring_dash_underscore a b = true ∧ a ≠ b)) := by
  refine ⟨fun h => by simp [crateNamePartialCmp, h], fun h => by simp [crateNamePartialCmp, h],
    rfl, ?_⟩
  unfold crateNamePartialCmp crateNameCmp
  by_cases h : eq_ignoring_dash_underscore a b = true
  · simp only [h, if_pos, if_true, ne_eq, Option.some.injEq, true_and]
    rw [← strCmp_eq_iff a b]
    constructor
    · intro hne heq
      exact hne heq.symm
    · intro hne heq
      exact hne heq.symm
  · simp only [h, Bool.not_eq_true] at *
    simp [h]

/-- Witness for C6's amended theorem at `"abc"` / `"abd"` (not equal
ignoring separators, so `partial_cmp` falls back to string order). -/
theorem crate_name_partialCmp_spec_witness :
    crateNamePartialCmp (str "abc") (str "abd") = some (strCmp (str "abc") (str "abd")) :=
  (crate_name_partialCmp_spec (str "abc") (str "abd")).2.1 (by decide)

/-! ## Claim C9 -/

/-- C9 counterexample: `kind_discriminator` is not injective — the distinct
kinds `Constant` and `AssocConst` both map to `"const"` (and four other
kinds share `"item"`). -/
theorem kind_discriminator_not_injective :
    kind_discriminator .Constant = kind_discriminator .AssocConst ∧
    ItemKind.Constant ≠ ItemKind.AssocConst := by
  constructor
  · rfl
  · decide

/-- C9 (amended): two item kinds receive the same discriminator string iff
they are equal, or both lie in the `const` class `{Constant, AssocConst}`,
or both lie in the `item` class `{ExternCrate, Use, Impl, ExternType}`;
restricted to kinds outside these two classes the mapping is injective. -/
theorem kind_discriminator_collision_classes (k1 k2 : ItemKind) :
    kind_discriminator k1 = kind_discriminator k2 ↔
      (k1 = k2 ∨
        (k1 ∈ ([.Constant, .AssocConst] : List ItemKind) ∧
          k2 ∈ ([.Constant, .AssocConst] : List ItemKind)) ∨
        (k1 ∈ ([.ExternCrate, .Use, .Impl, .ExternType] : List ItemKind) ∧
          k2 ∈ ([.ExternCrate, .Use, .Impl, .ExternType] : List ItemKind))) := by
  cases k1 <;> cases k2 <;> decide

/-! ## The search list command's display loop (`src/ferretin/src/main.rs`,
`Commands::Search` arm, lines 106-193)

Scores are embedded as rationals.  The Rust code uses `f32`; for the
concrete fixture below every comparison is far from a rounding boundary
(the decisive ratio is `100/276 ≈ 0.3623` against the threshold `0.3`), so
exact rational arithmetic gives the same verdicts as 32-bit floats. -/

/-- One entry of `all_results`: `(crate name, id path, score)`. -/
structure SearchHit where
  crate : Str
  idPath : List Nat
  score : ℚ
  deriving Repr

/-- Insert one hit into a score-descending list, after every hit of greater
or equal score (the stable position). -/
def sortInsertDesc (x : SearchHit) : List SearchHit → List SearchHit
  | [] => [x]
  | y :: ys => if y.score < x.score then x :: y :: ys else y :: sortInsertDesc x ys

/-- Stable descending sort by score: model of
`all_results.sort_by(|a, b| score_b.partial_cmp(score_a))` (main.rs lines
130-132), which is a stable sort. -/
def sortByScoreDesc (l : List SearchHit) : List SearchHit :=
  l.foldl (fun acc x => sortInsertDesc x acc) []

/-- Translation of the display loop of the `Search` arm (main.rs lines
145-191).  `i` is the enumeration index, `cum` the cumulative displayed
score, `prev` the previous displayed score (initially the top score).  The
two early-stop checks run before each display; `lookupOk` models
`request.get_item_from_id_path` succeeding, and only on success is the hit
displayed and `cum`/`prev` updated. -/
def searchDisplayLoop (limit minResults : Nat) (lookupOk : Str → List Nat → Bool)
    (top total : ℚ) : List SearchHit → Nat → ℚ → ℚ → List SearchHit
  | [], _, _, _ => []
  | hit :: rest, i, cum, prev =>
    if minResults ≤ i ∧ limit ≤ i then []
    else if minResults ≤ i ∧
        (hit.score / top < 5 / 100 ∨ hit.score / prev < 1 / 2 ∨ cum / total > 3 / 10) then []
    else if lookupOk hit.crate hit.idPath then
      hit :: searchDisplayLoop limit minResults lookupOk top total rest (i + 1)
        (cum + hit.score) hit.score
    else searchDisplayLoop limit minResults lookupOk top total rest (i + 1) cum prev

/-- The displayed results of the search list command: sort all results by
descending score, compute the total and top scores, then run the display
loop with `min_results = 1` (main.rs lines 129-191). -/
def searchCommandDisplay (limit : Nat) (lookupOk : Str → List Nat → Bool)
    (results : List SearchHit) : List SearchHit :=
  let sorted := sortByScoreDesc results
  let total := (sorted.map SearchHit.score).sum
  let top := match sorted with
    | [] => 0
    | h :: _ => h.score
  searchDisplayLoop limit 1 lookupOk top total sorted 0 0 top

/-- The fixture of the claim: per-result scores `[100, 96, 40, 38, 2]`. -/
def fixtureHits : List SearchHit :=
  [⟨str "c", [0], 100⟩, ⟨str "c", [1], 96⟩, ⟨str "c", [2], 40⟩,
    ⟨str "c", [3], 38⟩, ⟨str "c", [4], 2⟩]

/-! ## Claim C2 -/

/-- C2 counterexample: with scores `[100, 96, 40, 38, 2]`, `min_results = 1`
and `limit = 10`, the displayed set is not `[100, 96]`: after displaying the
top result the cumulative-score check fires (`100 / 276 > 3 / 10`), so the
result scored `96` is never shown. -/
theorem search_display_fixture_not_top_two :
    (searchCommandDisplay 10 (fun _ _ => true) fixtureHits).map SearchHit.score ≠
      [100, 96] := by
  norm_num [searchCommandDisplay, searchDisplayLoop, sortByScoreDesc, sortInsertDesc,
    fixtureHits, List.foldl]

/-- C2 (amended): with scores `[100, 96, 40, 38, 2]`, `min_results = 1` and
`limit = 10`, the search list command displays exactly the result scored
`100`: the checks are skipped for the first result, and at the second
result the cumulative displayed score (100 of a total 276) already exceeds
30% of the total score, which stops the loop before either ratio check can
matter. -/
theorem search_display_fixture_top_only :
    (searchCommandDisplay 10 (fun _ _ => true) fixtureHits).map SearchHit.score =
      [100] := by
  norm_num [searchCommandDisplay, searchDisplayLoop, sortByScoreDesc, sortInsertDesc,
    fixtureHits, List.foldl]

/-! ## Association lists

`HashMap` is embedded as an association list: `insert` prepends, and lookup
scans from the front, so the most recent insertion for a key wins — the
override semantics of `HashMap::insert`.  Iteration order of a `HashMap` is
unspecified in Rust; the embedding fixes a concrete order, and every theorem
below depends only on order-independent facts (key membership, and values of
keys all of whose insertions agree). -/

def alookup {α β : Type} [DecidableEq α] : List (α × β) → α → Option β
  | [], _ => none
  | (k, v) :: rest, key => if k = key then some v else alookup rest key

def containsKey {α β : Type} [DecidableEq α] (l : List (α × β)) (k : α) : Bool :=
  (alookup l k).isSome

theorem alookup_mem {α β : Type} [DecidableEq α] {l : List (α × β)} {k : α} {v : β}
    (h : alookup l k = some v) : (k, v) ∈ l := by
  induction l with
  | nil => simp [alookup] at h
  | cons p rest ih =>
    obtain ⟨k', v'⟩ := p
    by_cases hk : k' = k
    · rw [alookup, if_pos hk] at h
      subst hk
      obtain rfl : v' = v := Option.some.inj h
      exact List.mem_cons_self _ _
    · rw [alookup, if_neg hk] at h
      exact List.mem_cons_of_mem _ (ih h)

theorem alookup_isSome_iff {α β : Type} [DecidableEq α] {l : List (α × β)} {k : α} :
    (alookup l k).isSome = true ↔ k ∈ l.map Prod.fst := by
  induction l with
  | nil => simp [alookup]
  | cons p rest ih =>
    obtain ⟨k', v'⟩ := p
    by_cases hk : k' = k
    · subst hk
      simp [alookup]
    · rw [alookup, if_neg hk]
      simp only [List.map_cons, List.mem_cons, ih]
      constructor
      · exact Or.inr
      · rintro (h | h)
        · exact absurd h.symm hk
        · exact h

theorem alookup_eq_some_of_mem_of_agree {α β : Type} [DecidableEq α] {l : List (α × β)}
    {k : α} {v : β} (hmem : (k, v) ∈ l) (hagree : ∀ p ∈ l, p.1 = k → p.2 = v) :
    alookup l k = some v := by
  induction l with
  | nil => exact absurd hmem (List.not_mem_nil _)
  | cons p rest ih =>
    obtain ⟨k', v'⟩ := p
    by_cases hk : k' = k
    · rw [alookup, if_pos hk]
      exact congrArg some (hagree (k', v') (List.mem_cons_self _ _) hk)
    · rw [alookup, if_neg hk]
      rcases List.mem_cons.mp hmem with h | h
      · exact absurd (congrArg Prod.fst h).symm hk
      · exact ih h fun p hp => hagree p (List.mem_cons_of_mem _ hp)

theorem containsKey_iff {α β : Type} [DecidableEq α] {l : List (α × β)} {k : α} :
    containsKey l k = true ↔ k ∈ l.map Prod.fst :=
  alookup_isSome_iff

/-! ## Path strings

Path strings are joined with `"::"` and, in `build_path_index`, split again
at the last occurrence of `"::"` (`str::rfind`). -/

/-- Intercalation of path segments with `"::"` (`[String]::join("::")`). -/
def joinPath : List Str → Str
  | [] => []
  | [s] => s
  | s :: rest => s ++ ':' :: ':' :: joinPath rest

/-- Index of the last occurrence of `"::"` in a string (`str::rfind("::")`):
the largest `i` with `s[i] = ':'` and `s[i+1] = ':'`. -/
def rfindSep : Str → Option Nat
  | [] => none
  | c :: rest =>
    match rfindSep rest with
    | some i => some (i + 1)
    | none => if c = ':' ∧ rest.head? = some ':' then some 0 else none

/-- Split a path string at its last `"::"` (rustdoc_data.rs lines 142-145):
`(prefix including the separator, last segment)`, or `("", s)` when there is
no separator. -/
def rsplitSep (s : Str) : Str × Str :=
  match rfindSep s with
  | some i => (s.take (i + 2), s.drop (i + 2))
  | none => ([], s)

/-- A well-formed name or path segment: nonempty, and containing neither the
separator character `:` nor the discriminator character `@`. -/
def SegClean (s : Str) : Prop := s ≠ [] ∧ ':' ∉ s ∧ '@' ∉ s

instance (s : Str) : Decidable (SegClean s) := by
  unfold SegClean
  infer_instance

theorem mem_joinPath_iff {c : Char} (hc : c ≠ ':') (l : List Str) :
    c ∈ joinPath l ↔ ∃ s ∈ l, c ∈ s := by
  induction l with
  | nil => simp [joinPath]
  | cons x rest ih =>
    cases rest with
    | nil => simp [joinPath]
    | cons y ys =>
      have hj : joinPath (x :: y :: ys) = x ++ ':' :: ':' :: joinPath (y :: ys) := rfl
      rw [hj]
      simp only [List.mem_append, List.mem_cons, ih]
      constructor
      · rintro (h | h | h | h)
        · exact ⟨x, Or.inl rfl, h⟩
        · exact absurd h hc
        · exact absurd h hc
        · obtain ⟨s, hs, hcs⟩ := h
          exact ⟨s, Or.inr hs, hcs⟩
      · rintro ⟨s, hs | hs, hcs⟩
        · exact Or.inl (hs ▸ hcs)
        · exact Or.inr (Or.inr (Or.inr ⟨s, hs, hcs⟩))

/-! ## The reverse path index
(`RustdocData::build_path_index`, rustdoc_data.rs lines 119-160) -/

/-- A rustdoc `ItemSummary`: the crate id (`0` = local), the path segments
(first segment is the crate name), and the item kind. -/
structure ItemSummary where
  crate_id : Nat
  path : List Str
  kind : ItemKind
  deriving DecidableEq, Repr

/-- The grouping key of one `paths` entry (rustdoc_data.rs lines 122-135):
`Some(tail.join("::"))` for a local item whose path has at least two
segments, `None` (skipped) otherwise. -/
def groupKeyOf (s : ItemSummary) : Option Str :=
  if s.crate_id ≠ 0 then none
  else if s.path = [] then none
  else if s.path.tail = [] then none
  else some (joinPath s.path.tail)

/-- The group of `(id, kind)` pairs collected under one unqualified path key
(the contents of one `by_unqualified` bucket). -/
def groupOf (paths : List (Nat × ItemSummary)) (k : Str) : List (Nat × ItemKind) :=
  paths.filterMap fun p => if groupKeyOf p.2 = some k then some (p.1, p.2.kind) else none

/-- The distinct unqualified path keys occurring in `paths` (the key set of
`by_unqualified`; a `HashMap` iterates its keys in an unspecified order, the
embedding uses `dedup` order). -/
def groupKeys (paths : List (Nat × ItemSummary)) : List Str :=
  (paths.filterMap fun p => groupKeyOf p.2).dedup

/-- The `by_unqualified` map of `build_path_index`: each distinct
unqualified key with its bucket. -/
def byUnqualified (paths : List (Nat × ItemSummary)) : List (Str × List (Nat × ItemKind)) :=
  (groupKeys paths).map fun k => (k, groupOf paths k)

/-- The kind-qualified key of a bucket entry (rustdoc_data.rs line 149):
split the unqualified key at its last `"::"` and put `kind@` before the last
segment. -/
def qualKeyOf (k : Str) (kind : ItemKind) : Str :=
  (rsplitSep k).1 ++ kind_discriminator kind ++ '@' :: (rsplitSep k).2

/-- The insertion sequence of `build_path_index` (rustdoc_data.rs lines
138-157): for each bucket, a kind-qualified entry per item, then — only for
a bucket of exactly one item — the unqualified entry. -/
def entriesOf (paths : List (Nat × ItemSummary)) : List (Str × Nat) :=
  (byUnqualified paths).flatMap fun g =>
    (g.2.map fun it => (qualKeyOf g.1 it.2, it.1)) ++
      (match g.2 with
        | [it] => [(g.1, it.1)]
        | _ => [])

/-- Translation of `RustdocData::build_path_index`: the reverse path index as
an association list, built by folding `HashMap::insert` (prepend) over the
insertion sequence. -/
def build_path_index (paths : List (Nat × ItemSummary)) : List (Str × Nat) :=
  (entriesOf paths).foldl (fun m e => e :: m) []

theorem foldl_cons_eq_reverse {α : Type} (l acc : List α) :
    l.foldl (fun m e => e :: m) acc = l.reverse ++ acc := by
  induction l generalizing acc with
  | nil => simp
  | cons x rest ih => simp [List.foldl_cons, ih]

theorem build_path_index_eq_reverse (paths : List (Nat × ItemSummary)) :
    build_path_index paths = (entriesOf paths).reverse := by
  rw [build_path_index, foldl_cons_eq_reverse, List.append_nil]

theorem groupKeyOf_eq_some {s : ItemSummary} {k : Str} (h : groupKeyOf s = some k) :
    s.crate_id = 0 ∧ ∃ p0 tail, s.path = p0 :: tail ∧ tail ≠ [] ∧ k = joinPath tail := by
  unfold groupKeyOf at h
  by_cases h0 : s.crate_id ≠ 0
  · rw [if_pos h0] at h
    exact absurd h (by simp)
  · rw [if_neg h0] at h
    push_neg at h0
    refine ⟨h0, ?_⟩
    rcases hp : s.path with _ | ⟨p0, tail⟩
    · rw [hp] at h
      simp at h
    · rw [hp, List.tail_cons] at h
      rw [if_neg (by simp : ¬(p0 :: tail = []))] at h
      by_cases ht : tail = []
      · rw [if_pos ht] at h
        simp at h
      · rw [if_neg ht] at h
        exact ⟨p0, tail, rfl, ht, (Option.some.inj h).symm⟩

theorem mem_groupOf_iff {paths : List (Nat × ItemSummary)} {k : Str} {id : Nat}
    {kind : ItemKind} :
    (id, kind) ∈ groupOf paths k ↔
      ∃ s, (id, s) ∈ paths ∧ groupKeyOf s = some k ∧ s.kind = kind := by
  unfold groupOf
  rw [List.mem_filterMap]
  constructor
  · rintro ⟨⟨id', s⟩, hmem, hf⟩
    by_cases hg : groupKeyOf s = some k
    · rw [if_pos hg] at hf
      obtain ⟨h1, h2⟩ := Prod.mk.inj (Option.some.inj hf)
      exact ⟨s, h1 ▸ hmem, hg, h2⟩
    · rw [if_neg hg] at hf
      exact absurd hf (by simp)
  · rintro ⟨s, hmem, hg, hk⟩
    exact ⟨(id, s), hmem, by rw [if_pos hg, hk]⟩

theorem mem_groupKeys_iff {paths : List (Nat × ItemSummary)} {k : Str} :
    k ∈ groupKeys paths ↔ ∃ p ∈ paths, groupKeyOf p.2 = some k := by
  unfold groupKeys
  rw [List.mem_dedup, List.mem_filterMap]

theorem mem_byUnqualified {paths : List (Nat × ItemSummary)}
    {g : Str × List (Nat × ItemKind)} (h : g ∈ byUnqualified paths) :
    g.1 ∈ groupKeys paths ∧ g.2 = groupOf paths g.1 := by
  unfold byUnqualified at h
  obtain ⟨k, hk, rfl⟩ := List.mem_map.mp h
  exact ⟨hk, rfl⟩

theorem byUnqualified_mem_of_key {paths : List (Nat × ItemSummary)} {k : Str}
    (h : k ∈ groupKeys paths) : (k, groupOf paths k) ∈ byUnqualified paths :=
  List.mem_map.mpr ⟨k, h, rfl⟩

/-- Every kind discriminator string is nonempty and free of `:` and `@`. -/
theorem kind_discriminator_clean (k : ItemKind) : SegClean (kind_discriminator k) := by
  cases k <;> exact ⟨by decide, by decide, by decide⟩

theorem mem_at_qualKeyOf (k : Str) (kind : ItemKind) : '@' ∈ qualKeyOf k kind := by
  unfold qualKeyOf
  simp

/-- Membership of a key in the reverse path index, in terms of the insertion
sequence. -/
theorem build_path_index_containsKey_iff {paths : List (Nat × ItemSummary)} {key : Str} :
    containsKey (build_path_index paths) key = true ↔
      key ∈ (entriesOf paths).map Prod.fst := by
  rw [containsKey_iff, build_path_index_eq_reverse, List.map_reverse, List.mem_reverse]

theorem mem_entriesOf_keys_iff {paths : List (Nat × ItemSummary)} {key : Str} :
    key ∈ (entriesOf paths).map Prod.fst ↔
      ∃ k ∈ groupKeys paths,
        (∃ it ∈ groupOf paths k, key = qualKeyOf k it.2) ∨
          (key = k ∧ ∃ it, groupOf paths k = [it]) := by
  unfold entriesOf
  rw [List.map_flatMap]
  simp only [List.mem_flatMap]
  constructor
  · rintro ⟨g, hg, hkey⟩
    obtain ⟨hgk, hgv⟩ := mem_byUnqualified hg
    refine ⟨g.1, hgk, ?_⟩
    rw [List.map_append, List.mem_append, List.map_map] at hkey
    rcases hkey with h | h
    · obtain ⟨it, hit, hq⟩ := List.mem_map.mp h
      exact Or.inl ⟨it, hgv ▸ hit, hq.symm⟩
    · rcases hg2 : g.2 with _ | ⟨it, rest⟩
      · rw [hg2] at h
        simp at h
      · rcases rest with _ | ⟨it2, rest2⟩
        · rw [hg2] at h
          simp only [List.map_cons, List.map_nil, List.mem_singleton] at h
          exact Or.inr ⟨h, it, hgv ▸ hg2⟩
        · rw [hg2] at h
          simp at h
  · rintro ⟨k, hk, h | h⟩
    · obtain ⟨it, hit, hq⟩ := h
      refine ⟨(k, groupOf paths k), byUnqualified_mem_of_key hk, ?_⟩
      rw [List.map_append, List.mem_append, List.map_map]
      exact Or.inl (List.mem_map.mpr ⟨it, hit, hq.symm⟩)
    · obtain ⟨hkey, it, hsingle⟩ := h
      refine ⟨(k, groupOf paths k), byUnqualified_mem_of_key hk, ?_⟩
      rw [List.map_append, List.mem_append]
      rw [hsingle]
      exact Or.inr (by simp [hkey])

/-! ## Claim C5 -/

/-- C5 counterexample: two distinct local items with the same path
`c::a` and the same kind `Struct`.  No item of a *different* kind shares the
path, so the claim requires the unqualified key `"a"` to be present, but
`build_path_index` inserts the unqualified key only for buckets of exactly
one item, and the key is absent. -/
theorem build_path_index_same_kind_collision_drops_unqualified :
    containsKey
        (build_path_index
          [(1, ⟨0, [str "c", str "a"], .Struct⟩), (2, ⟨0, [str "c", str "a"], .Struct⟩)])
        (str "a") = false ∧
      ∀ p ∈ [((1 : Nat), (⟨0, [str "c", str "a"], .Struct⟩ : ItemSummary)),
          (2, ⟨0, [str "c", str "a"], .Struct⟩)],
        groupKeyOf p.2 = some (str "a") ∧ p.2.kind = ItemKind.Struct := by
  constructor
  · decide
  · decide

/-- C5 (amended): after `build_path_index`, for every indexed local item
(`crate_id = 0`, at least two path segments, with well-formed segments) the
kind-qualified key `prefix::kind@name` is present in the index, and the
unqualified key `prefix::name` is present exactly when the item is the
*only* item indexed at that exact path — a second item of the same kind at
the path also suppresses the unqualified key, not only a sibling of a
different kind. -/
theorem build_path_index_key_presence (paths : List (Nat × ItemSummary))
    (hclean : ∀ p ∈ paths, ∀ seg ∈ p.2.path, SegClean seg)
    (id : Nat) (s : ItemSummary) (k : Str)
    (hmem : (id, s) ∈ paths) (hkey : groupKeyOf s = some k) :
    containsKey (build_path_index paths) (qualKeyOf k s.kind) = true ∧
    (containsKey (build_path_index paths) k = true ↔ (groupOf paths k).length = 1) := by
  have hkmem : k ∈ groupKeys paths :=
    mem_groupKeys_iff.mpr ⟨(id, s), hmem, hkey⟩
  have hitem : (id, s.kind) ∈ groupOf paths k :=
    mem_groupOf_iff.mpr ⟨s, hmem, hkey, rfl⟩
  have hknoat : '@' ∉ k := by
    obtain ⟨-, p0, tail, hpath, -, rfl⟩ := groupKeyOf_eq_some hkey
    rw [mem_joinPath_iff (by decide)]
    rintro ⟨seg, hseg, hat⟩
    exact (hclean (id, s) hmem seg (by rw [hpath]; exact List.mem_cons_of_mem _ hseg)).2.2 hat
  constructor
  · rw [build_path_index_containsKey_iff, mem_entriesOf_keys_iff]
    exact ⟨k, hkmem, Or.inl ⟨(id, s.kind), hitem, rfl⟩⟩
  · rw [build_path_index_containsKey_iff, mem_entriesOf_keys_iff]
    constructor
    · rintro ⟨k', hk', h | h⟩
      · obtain ⟨it, hit, hq⟩ := h
        exact absurd (hq ▸ mem_at_qualKeyOf k' it.2) hknoat
      · obtain ⟨hkk, it, hsingle⟩ := h
        subst hkk
        rw [hsingle]
        rfl
    · intro hlen
      rcases hg : groupOf paths k with _ | ⟨it, rest⟩
      · rw [hg] at hlen
        simp at hlen
      · rcases rest with _ | ⟨it2, rest2⟩
        · exact ⟨k, hkmem, Or.inr ⟨rfl, it, hg⟩⟩
        · rw [hg] at hlen
          simp at hlen

/-- Witness for C5's amended theorem: one local struct at path `c::a`. -/
theorem build_path_index_key_presence_witness :
    containsKey (build_path_index [(1, ⟨0, [str "c", str "a"], .Struct⟩)])
        (qualKeyOf (str "a") .Struct) = true ∧
    (containsKey (build_path_index [(1, ⟨0, [str "c", str "a"], .Struct⟩)])
        (str "a") = true ↔
      (groupOf [(1, ⟨0, [str "c", str "a"], .Struct⟩)] (str "a")).length = 1) :=
  build_path_index_key_presence _ (by decide) 1 ⟨0, [str "c", str "a"], .Struct⟩
    (str "a") (by decide) (by decide)

/-! ## Discriminated paths (`DocRef::discriminated_path`,
`src/ferritin-common/src/doc_ref.rs` lines 155-209)

`DocRef` is projected onto the data `discriminated_path` reads: the owning
crate's canonical name (`crate_docs().name()`), the item's `ItemSummary` (if
any), the item's own `name` field, its kind, and the optional parent context
set during traversal.  The parent is one level deep, exactly as in the
source: the recursive call constructs a fresh `DocRef` whose `parent` is
`None`, so recursion never goes past the parent.  The parent's name
override (`ParentRef::name`) is not modelled because `discriminated_path`
never reads a name override: the summary branch uses only the summary, and
the fallback branch reads `self.item.name` directly. -/

/-- The parent context of a `DocRef` (`ParentRef`, doc_ref.rs lines 15-21),
projected onto what `discriminated_path` reads: the parent crate's name, the
parent's summary (`crate_docs.paths.get(&parent.item.id)`), the key set of
the parent crate's reverse path index, and the parent item's kind. -/
structure ParentInfo where
  crateName : Str
  summary : Option ItemSummary
  pathToIdKeys : List Str
  kind : ItemKind

/-- A `DocRef`, projected onto the data `discriminated_path` reads. -/
structure DR where
  crateName : Str
  summary : Option ItemSummary
  itemName : Option Str
  kind : ItemKind
  parent : Option ParentInfo

/-- The summary branch of `discriminated_path` (doc_ref.rs lines 156-175):
`path.get(1..)?` fails for an empty path (returning `None` for the whole
function), a one-segment path uses `path[0]` as the discriminated name, and
longer paths join the middle segments, testing the joined prefix for
emptiness as the source does. -/
def dpFromSummary (crateName : Str) (disc : Str) (path : List Str) : Option Str :=
  match path with
  | [] => none
  | p0 :: tail =>
    match tail.getLast? with
    | none => some (crateName ++ str "::" ++ disc ++ '@' :: p0)
    | some last =>
      let pre := joinPath tail.dropLast
      if pre = [] then some (crateName ++ str "::" ++ disc ++ '@' :: last)
      else some (crateName ++ str "::" ++ pre ++ str "::" ++ disc ++ '@' :: last)

/-- The fast path of the parent fallback (doc_ref.rs lines 186-199): when
the parent has a summary with at least one path segment and the parent's
unqualified key (`tail.join("::")`) is present in the reverse path index,
emit the parent's plain path followed by `::disc@name`. -/
def dpFastPath (k : ItemKind) (name : Str) (p : ParentInfo) : Option Str :=
  match p.summary with
  | none => none
  | some ps =>
    match ps.path with
    | [] => none
    | _ :: ptail =>
      if joinPath ptail ∈ p.pathToIdKeys then
        some ((if joinPath ptail = [] then p.crateName
            else p.crateName ++ str "::" ++ joinPath ptail) ++
          str "::" ++ kind_discriminator k ++ '@' :: name)
      else none

/-- The parent fallback of `discriminated_path` (doc_ref.rs lines 177-208):
fast path first; otherwise the parent's own discriminated path — computed
on a fresh `DocRef` whose `parent` is `None`, hence by the summary branch
alone — is prefixed to `::disc@name`. -/
def dpFallback (k : ItemKind) (name : Str) (p : ParentInfo) : Option Str :=
  match dpFastPath k name p with
  | some r => some r
  | none =>
    match p.summary with
    | none => none
    | some ps =>
      (dpFromSummary p.crateName (kind_discriminator p.kind) ps.path).map
        fun pp => pp ++ str "::" ++ kind_discriminator k ++ '@' :: name

/-- Translation of `DocRef::discriminated_path` (doc_ref.rs lines 155-209).
With a summary, the summary branch decides alone (its `?` returns from the
whole function).  Without one, the parent context and the item's own
`name` field are both required before the fallback can produce anything. -/
def discriminated_path (d : DR) : Option Str :=
  match d.summary with
  | some s => dpFromSummary d.crateName (kind_discriminator d.kind) s.path
  | none =>
    match d.parent with
    | none => none
    | some p =>
      match d.itemName with
      | none => none
      | some name => dpFallback d.kind name p

theorem dpFromSummary_isSome (crateName disc : Str) (path : List Str) :
    (dpFromSummary crateName disc path).isSome = true ↔ path ≠ [] := by
  cases path with
  | nil => simp [dpFromSummary]
  | cons p0 tail =>
    simp only [dpFromSummary, ne_eq, reduceCtorEq, not_false_eq_true, iff_true]
    cases htail : tail.getLast? with
    | none => rfl
    | some last =>
      by_cases hpre : joinPath tail.dropLast = []
      · simp [hpre]
      · simp [hpre]

theorem dpFallback_isSome (k : ItemKind) (name : Str) (p : ParentInfo) :
    (dpFallback k name p).isSome = true ↔
      ∃ ps, p.summary = some ps ∧ ps.path ≠ [] := by
  obtain ⟨pcn, psum, keys, pk⟩ := p
  cases psum with
  | none => simp [dpFallback, dpFastPath]
  | some ps =>
    cases hpp : ps.path with
    | nil => simp [dpFallback, dpFastPath, dpFromSummary, hpp]
    | cons q ptail =>
      by_cases hmem : joinPath ptail ∈ keys
      · simp [dpFallback, dpFastPath, hpp, hmem]
      · simp [dpFallback, dpFastPath, hpp, hmem, Option.isSome_map, dpFromSummary_isSome]

/-! ## Claim C7 -/

/-- A parent context for the C7 counterexample: a struct `c::X` whose
unqualified key is present in the reverse index. -/
def orphanParent : ParentInfo :=
  { crateName := str "c", summary := some ⟨0, [str "c", str "X"], .Struct⟩,
    pathToIdKeys := [str "X"], kind := .Struct }

/-- An orphaned impl item: no path summary, a parent context set during
traversal, but no `name` of its own. -/
def orphanNoName : DR :=
  { crateName := str "c", summary := none, itemName := none, kind := .Impl,
    parent := some orphanParent }

/-- C7 counterexample: an item with no path summary but *with* a parent
context — here an impl item, whose `name` field is `None` — yields
`discriminated_path = None` even though parent context is available,
because the fallback requires `self.item.name` (doc_ref.rs line 181). -/
theorem discriminated_path_none_despite_parent :
    discriminated_path orphanNoName = none ∧ orphanNoName.parent.isSome = true :=
  ⟨rfl, rfl⟩

/-- C7 (amended): `discriminated_path` succeeds exactly when the item has a
path summary with a nonempty path, or — having no summary — has a parent
context, its own `name`, and a parent whose summary has a nonempty path.
In particular a parent context alone does not suffice: a nameless item, or
a parent without a usable summary, still yields `None`, and an item whose
own summary has an empty path yields `None` even with a parent present. -/
theorem discriminated_path_isSome_iff (d : DR) :
    (discriminated_path d).isSome = true ↔
      ((∃ s, d.summary = some s ∧ s.path ≠ []) ∨
        (d.summary = none ∧ ∃ p, d.parent = some p ∧ d.itemName ≠ none ∧
          ∃ ps, p.summary = some ps ∧ ps.path ≠ [])) := by
  obtain ⟨cn, sum, iname, k, par⟩ := d
  cases sum with
  | some s => simp [discriminated_path, dpFromSummary_isSome]
  | none =>
    cases par with
    | none => simp [discriminated_path]
    | some p =>
      cases iname with
      | none => simp [discriminated_path]
      | some name => simp [discriminated_path, dpFallback_isSome]

/-! ## Search aggregation (`src/ferritin-common/src/search.rs`)

`Navigator::search` and `Navigator::get_or_build_search_index` are under
`src/`; the `SearchIndex` and `BM25Scorer` types they use live in
`search/indexer.rs`, which is not, and the `Suggestion` type and
`Navigator::canonicalize` live in the missing `navigator.rs`.  The missing
pieces appear either as parameters (`canon`, `load_or_build`) or as
definitions modelled from the spec.  The `rayon` fan-out of `search` is
serialized in argument order, which `par_iter().collect()` preserves; the
claims settled here concern sequential calls, not racing ones. -/

/-- Modelled from the spec: a "did you mean" suggestion (the `Suggestion`
type of the missing `navigator.rs`); only its identity matters to the
claims, so it is represented by its text. -/
abbrev Suggestion := Str

/-- Modelled from the spec: a per-package search index (`search/indexer.rs`
is not under `src/`) — all the claims need is its `search` method, returning
scored `(id path, score)` pairs for a query. -/
structure SearchIndex where
  search : Str → List (List Nat × ℚ)

/-- The Navigator's search-index cache: canonical crate name to
`Some(index)` (built) or `None` (cached permanent failure).  The map is
keyed by `CrateName`, whose equality ignores dash/underscore. -/
abbrev SearchIndexCache := List (Str × Option SearchIndex)

/-- Lookup in the search-index cache under `CrateName` equality. -/
def cacheLookup : SearchIndexCache → Str → Option (Option SearchIndex)
  | [], _ => none
  | (k, v) :: rest, key =>
    if eq_ignoring_dash_underscore k key then some v else cacheLookup rest key

/-- The outcome of one `get_or_build_search_index` call: the returned
result, the cache afterwards, and whether a load/build was attempted. -/
structure GetOrBuildResult where
  result : Except (List Suggestion) SearchIndex
  state : SearchIndexCache
  attempted : Bool

/-- Translation of `Navigator::get_or_build_search_index` (search.rs lines
62-97): canonicalize the name; a cache hit returns the index or — for a
cached failure — `Err(vec![])` without any load attempt; a miss runs
`SearchIndex::load_or_build` once and caches the result, success or
failure. -/
def get_or_build_search_index (canon : Str → Str)
    (load_or_build : Str → Except (List Suggestion) SearchIndex)
    (st : SearchIndexCache) (crateName : Str) : GetOrBuildResult :=
  match cacheLookup st (canon crateName) with
  | some (some idx) => ⟨.ok idx, st, false⟩
  | some none => ⟨.error [], st, false⟩
  | none =>
    match load_or_build (canon crateName) with
    | .ok idx => ⟨.ok idx, (canon crateName, some idx) :: st, true⟩
    | .error suggestions => ⟨.error suggestions, (canon crateName, none) :: st, true⟩

/-- A scored cross-package search result: `(crate name, id path, score)`. -/
structure ScoredResult where
  crate : Str
  idPath : List Nat
  score : ℚ

/-- Stable insertion into a score-descending list of results. -/
def scoredInsertDesc (x : ScoredResult) : List ScoredResult → List ScoredResult
  | [] => [x]
  | y :: ys => if y.score < x.score then x :: y :: ys else y :: scoredInsertDesc x ys

/-- Stable descending sort of scored results. -/
def sortScoredDesc (l : List ScoredResult) : List ScoredResult :=
  l.foldl (fun acc x => scoredInsertDesc x acc) []

/-- Modelled from the spec: the `BM25Scorer` aggregation of the missing
`search/indexer.rs` — "merge all per-package (item, score) pairs into one
score-descending list; ties broken by insertion order": flatten the
per-package results in package order and stable-sort by descending
score. -/
def bm25Aggregate (crateResults : List (Str × List (List Nat × ℚ))) : List ScoredResult :=
  sortScoredDesc (crateResults.flatMap fun g => g.2.map fun r => ⟨g.1, r.1, r.2⟩)

/-- Per-crate index outcomes of one `search` call, in argument order
(`par_iter().map(..).collect()` preserves input order), together with the
final cache and the number of load/build attempts made. -/
def searchOutcomes (canon : Str → Str)
    (load_or_build : Str → Except (List Suggestion) SearchIndex) :
    SearchIndexCache → List Str →
      List (Str × Except (List Suggestion) SearchIndex) × SearchIndexCache × Nat
  | st, [] => ([], st, 0)
  | st, name :: rest =>
    let r := get_or_build_search_index canon load_or_build st name
    let others := searchOutcomes canon load_or_build r.state rest
    ((name, r.result) :: others.1, others.2.1,
      (if r.attempted then 1 else 0) + others.2.2)

/-- The outcome of one `Navigator::search` call. -/
structure SearchCallResult where
  result : Except (List Suggestion) (List ScoredResult)
  state : SearchIndexCache
  attempts : Nat

/-- Translation of `Navigator::search` (search.rs lines 15-57): an empty
crate list is `Ok(vec![])`; otherwise fetch-or-build every index, split
successes from failures keeping the first failure's suggestions, return
that first failure's suggestions only when *no* crate succeeded, and
otherwise the aggregated scores of the successes. -/
def navigatorSearch (canon : Str → Str)
    (load_or_build : Str → Except (List Suggestion) SearchIndex)
    (query : Str) (crateNames : List Str) (st : SearchIndexCache) : SearchCallResult :=
  if crateNames = [] then ⟨.ok [], st, 0⟩
  else
    let out := searchOutcomes canon load_or_build st crateNames
    let crateResults := out.1.filterMap fun p =>
      match p.2 with
      | .ok idx => some (p.1, idx.search query)
      | .error _ => none
    let firstError := out.1.findSome? fun p =>
      match p.2 with
      | .error s => some s
      | .ok _ => none
    if crateResults = [] ∧ firstError.isSome then
      ⟨.error (firstError.getD []), out.2.1, out.2.2⟩
    else ⟨.ok (bm25Aggregate crateResults), out.2.1, out.2.2⟩

theorem searchOutcomes_map_fst (canon : Str → Str)
    (load_or_build : Str → Except (List Suggestion) SearchIndex)
    (names : List Str) :
    ∀ st, (searchOutcomes canon load_or_build st names).1.map Prod.fst = names := by
  induction names with
  | nil => intro st; rfl
  | cons name rest ih =>
    intro st
    simp only [searchOutcomes, List.map_cons, ih]

/-! ## Claim C4 -/

/-- C4: permanent-failure caching.  A first request for an uncached package
whose load fails performs exactly one load/build attempt and caches the
failure; the immediately following request is served from the cached
failure with no attempt; more generally *any* request for a package whose
canonical name is already cached — success or failure — attempts nothing,
and a whole `search` call naming only the failed package after the first
failure performs zero attempts. -/
theorem search_index_failure_cached_permanently (canon : Str → Str)
    (load_or_build : Str → Except (List Suggestion) SearchIndex)
    (st : SearchIndexCache) (name query : Str) (suggestions : List Suggestion)
    (hmiss : cacheLookup st (canon name) = none)
    (hfail : load_or_build (canon name) = .error suggestions) :
    (get_or_build_search_index canon load_or_build st name =
      ⟨.error suggestions, (canon name, none) :: st, true⟩) ∧
    (get_or_build_search_index canon load_or_build ((canon name, none) :: st) name =
      ⟨.error [], (canon name, none) :: st, false⟩) ∧
    (∀ st2 name2, cacheLookup st2 (canon name2) ≠ none →
      (get_or_build_search_index canon load_or_build st2 name2).attempted = false) ∧
    ((navigatorSearch canon load_or_build query [name]
        ((canon name, none) :: st)).attempts = 0) := by
  have hhit : cacheLookup ((canon name, none) :: st) (canon name) = some none := by
    unfold cacheLookup
    rw [if_pos (eq_ignoring_dash_underscore_refl (canon name))]
  refine ⟨?_, ?_, ?_, ?_⟩
  · unfold get_or_build_search_index
    rw [hmiss, hfail]
  · unfold get_or_build_search_index
    rw [hhit]
  · intro st2 name2 hsome
    unfold get_or_build_search_index
    cases hc : cacheLookup st2 (canon name2) with
    | none => exact absurd hc hsome
    | some v => cases v <;> rfl
  · have hgob : get_or_build_search_index canon load_or_build
        ((canon name, none) :: st) name =
        ⟨.error [], (canon name, none) :: st, false⟩ := by
      unfold get_or_build_search_index
      rw [hhit]
    unfold navigatorSearch
    rw [if_neg (by simp : ¬([name] = ([] : List Str)))]
    simp only [searchOutcomes, hgob]
    rfl

/-- Witness for C4: identity canonicalization, a loader that always fails
with one suggestion, an empty initial cache; the call after the cached
failure attempts nothing and returns the empty suggestion list. -/
theorem search_index_failure_cached_permanently_witness :
    get_or_build_search_index (fun s => s) (fun _ => .error [str "sug"])
        [(str "pkg", none)] (str "pkg") =
      ⟨.error [], [(str "pkg", none)], false⟩ :=
  (search_index_failure_cached_permanently (fun s => s) (fun _ => .error [str "sug"])
    [] (str "pkg") (str "q") [str "sug"] rfl rfl).2.1

/-! ## Claim C10 -/

/-- C10: once a package's index build has failed, a later `search` naming
only that package returns `Err` with an *empty* suggestion list — the
original suggestions are not preserved in the permanent-failure cache —
and performs no further load/build attempt, even when the first failing
call returned a non-empty suggestion list. -/
theorem search_failure_suggestions_not_preserved (canon : Str → Str)
    (load_or_build : Str → Except (List Suggestion) SearchIndex)
    (st : SearchIndexCache) (name query : Str) (suggestions : List Suggestion)
    (hmiss : cacheLookup st (canon name) = none)
    (hfail : load_or_build (canon name) = .error suggestions)
    (_hne : suggestions ≠ []) :
    (navigatorSearch canon load_or_build query [name] st).result = .error suggestions ∧
    (navigatorSearch canon load_or_build query [name]
        (navigatorSearch canon load_or_build query [name] st).state).result =
      .error [] ∧
    (navigatorSearch canon load_or_build query [name]
        (navigatorSearch canon load_or_build query [name] st).state).attempts = 0 := by
  have hgob1 : get_or_build_search_index canon load_or_build st name =
      ⟨.error suggestions, (canon name, none) :: st, true⟩ := by
    unfold get_or_build_search_index
    rw [hmiss, hfail]
  have hhit : cacheLookup ((canon name, none) :: st) (canon name) = some none := by
    unfold cacheLookup
    rw [if_pos (eq_ignoring_dash_underscore_refl (canon name))]
  have hgob2 : get_or_build_search_index canon load_or_build
      ((canon name, none) :: st) name = ⟨.error [], (canon name, none) :: st, false⟩ := by
    unfold get_or_build_search_index
    rw [hhit]
  have h1 : navigatorSearch canon load_or_build query [name] st =
      ⟨.error suggestions, (canon name, none) :: st, 1⟩ := by
    unfold navigatorSearch
    rw [if_neg (by simp : ¬([name] = ([] : List Str)))]
    simp only [searchOutcomes, hgob1]
    rfl
  rw [h1]
  have h2 : navigatorSearch canon load_or_build query [name]
      ((canon name, none) :: st) = ⟨.error [], (canon name, none) :: st, 0⟩ := by
    unfold navigatorSearch
    rw [if_neg (by simp : ¬([name] = ([] : List Str)))]
    simp only [searchOutcomes, hgob2]
    rfl
  exact ⟨rfl, by rw [h2], by rw [h2]⟩

/-- Witness for C10 on concrete inputs. -/
theorem search_failure_suggestions_not_preserved_witness :
    (navigatorSearch (fun s => s) (fun _ => .error [str "sug"]) (str "q")
        [str "pkg"] []).result = .error [str "sug"] ∧
    (navigatorSearch (fun s => s) (fun _ => .error [str "sug"]) (str "q")
        [str "pkg"]
        (navigatorSearch (fun s => s) (fun _ => .error [str "sug"]) (str "q")
          [str "pkg"] []).state).result = .error [] ∧
    (navigatorSearch (fun s => s) (fun _ => .error [str "sug"]) (str "q")
        [str "pkg"]
        (navigatorSearch (fun s => s) (fun _ => .error [str "sug"]) (str "q")
          [str "pkg"] []).state).attempts = 0 :=
  search_failure_suggestions_not_preserved (fun s => s) (fun _ => .error [str "sug"])
    [] (str "pkg") (str "q") [str "sug"] rfl rfl (by simp)

/-! ## Claim C8 -/

/-- C8: search aggregation over failures.  For `search` on a non-empty
package list: the per-package outcomes are in argument order; when every
package fails, the result is `Err` with the suggestion list of the first
(in argument order) failing package; when at least one package succeeds,
the result is `Ok` with the merged results of the successes, the failures
being dropped. -/
theorem navigator_search_error_aggregation (canon : Str → Str)
    (load_or_build : Str → Except (List Suggestion) SearchIndex)
    (query : Str) (crateNames : List Str) (st : SearchIndexCache)
    (hne : crateNames ≠ []) :
    ((searchOutcomes canon load_or_build st crateNames).1.map Prod.fst = crateNames) ∧
    (∀ nm0 e0 rest,
      (searchOutcomes canon load_or_build st crateNames).1 = (nm0, .error e0) :: rest →
      (∀ p ∈ rest, ∃ e, p.2 = Except.error e) →
      (navigatorSearch canon load_or_build query crateNames st).result = .error e0) ∧
    ((∃ p ∈ (searchOutcomes canon load_or_build st crateNames).1,
        ∃ idx, p.2 = Except.ok idx) →
      (navigatorSearch canon load_or_build query crateNames st).result =
        .ok (bm25Aggregate
          ((searchOutcomes canon load_or_build st crateNames).1.filterMap fun p =>
            match p.2 with
            | .ok idx => some (p.1, idx.search query)
            | .error _ => none))) := by
  refine ⟨searchOutcomes_map_fst canon load_or_build crateNames st, ?_, ?_⟩
  · intro nm0 e0 rest hres hallerr
    unfold navigatorSearch
    rw [if_neg hne]
    simp only [hres]
    have hfilter : (((nm0, Except.error e0) :: rest).filterMap fun p =>
        match p.2 with
        | .ok idx => some (p.1, idx.search query)
        | .error _ => none) = ([] : List (Str × List (List Nat × ℚ))) := by
      rw [List.filterMap_eq_nil_iff]
      intro p hp
      rcases List.mem_cons.mp hp with h | h
      · rw [h]
      · obtain ⟨e, he⟩ := hallerr p h
        rw [he]
    have hfirst : (((nm0, Except.error e0) :: rest).findSome? fun p =>
        match p.2 with
        | .error s => some s
        | .ok _ => none) = some e0 := by
      rw [List.findSome?_cons]
    rw [hfilter, hfirst]
    rw [if_pos ⟨rfl, rfl⟩]
    rfl
  · rintro ⟨p, hp, idx, hidx⟩
    unfold navigatorSearch
    rw [if_neg hne]
    have hmem : (p.1, idx.search query) ∈
        ((searchOutcomes canon load_or_build st crateNames).1.filterMap fun p =>
          match p.2 with
          | .ok idx => some (p.1, idx.search query)
          | .error _ => none) :=
      List.mem_filterMap.mpr ⟨p, hp, by rw [hidx]⟩
    rw [if_neg]
    rintro ⟨hnil, -⟩
    rw [hnil] at hmem
    exact List.not_mem_nil _ hmem

/-- Witness for C8: one package whose index builds successfully. -/
theorem navigator_search_error_aggregation_witness :
    (navigatorSearch (fun s => s) (fun _ => .ok ⟨fun _ => []⟩) (str "q")
        [str "a"] []).result =
      .ok (bm25Aggregate
        ((searchOutcomes (fun s => s) (fun _ => .ok ⟨fun _ => []⟩) []
            [str "a"]).1.filterMap fun p =>
          match p.2 with
          | .ok idx => some (p.1, idx.search (str "q"))
          | .error _ => none)) :=
  (navigator_search_error_aggregation (fun s => s) (fun _ => .ok ⟨fun _ => []⟩)
      (str "q") [str "a"] [] (by simp)).2.2
    ⟨(str "a", .ok ⟨fun _ => []⟩), by exact List.mem_singleton.mpr rfl,
      ⟨fun _ => []⟩, rfl⟩

/-! ## Path resolution (`Navigator::resolve_path`)

The resolver itself lives in `navigator.rs`, which is not under `src/`; only
its callers (main.rs), the tests (tests.rs) and the pieces it consumes
(`build_path_index`, `DocRef::name`, `kind_discriminator`) are.  The
definitions below marked `Modelled from the spec:` embed the resolver from
§4.4 of the spec: split the input at `"::"`, canonicalize and load the
leading package segment, traverse the item tree child-by-child matching
names (and the `kind@` discriminator where one is written), and on failure
fall back to the reverse path index — on the longest resolvable prefix, as
the fixture test `discriminated_path_round_trips_method_on_private_module_struct`
(tests.rs lines 152-178) requires — resolving the indexed item and
traversing the remaining segments from it. -/

/-- Splitting worker: scan the string, breaking at each `"::"`; `acc` holds
the current segment reversed. -/
def splitPathAux : Str → Str → List Str
  | [], acc => [acc.reverse]
  | [c], acc => [(c :: acc).reverse]
  | c1 :: c2 :: rest, acc =>
    if c1 = ':' ∧ c2 = ':' then acc.reverse :: splitPathAux rest []
    else splitPathAux (c2 :: rest) (c1 :: acc)

/-- Split a path string at every `"::"` (`str::split("::")`). -/
def splitPath (s : Str) : List Str := splitPathAux s []

/-- Split a segment at its first `@`, if any. -/
def splitAtAt : Str → Option (Str × Str)
  | [] => none
  | c :: rest =>
    if c = '@' then some ([], rest)
    else
      match splitAtAt rest with
      | none => none
      | some (d, n) => some (c :: d, n)

/-- Parse one path segment of the form `[kind@]name` into its optional
discriminator and its name. -/
def parseSeg (seg : Str) : Option Str × Str :=
  match splitAtAt seg with
  | none => (none, seg)
  | some (d, n) => (some d, n)

/-- An item of the rustdoc export, projected onto what resolution needs: its
`name` field, its kind, and its child item ids (the flattened iteration
order of `child_items`). -/
structure Item where
  name : Option Str
  kind : ItemKind
  children : List Nat
  deriving DecidableEq, Repr

/-- A loaded package document (`RustdocData`), projected onto what
resolution needs.  Its reverse path index is `build_path_index paths` by
construction (rustdoc_data.rs documents that `path_to_id` is populated by
`build_path_index` before insertion into the Navigator). -/
structure Crate where
  name : Str
  root : Nat
  items : List (Nat × Item)
  paths : List (Nat × ItemSummary)
  deriving DecidableEq, Repr

/-- A resolved handle: the crate (by Navigator index), the item id, and the
parent item id set during traversal.  `DocRef` equality is identity of the
item and of the owning document, i.e. the `crate` and `id` fields here. -/
structure Handle where
  crate : Nat
  id : Nat
  parent : Option Nat
  deriving DecidableEq, Repr

/-- `DocRef::name` (doc_ref.rs lines 101-105) for a child reached without a
rename: the item's own `name`, or the last segment of its path summary. -/
def childName (c : Crate) (cid : Nat) : Option Str :=
  match alookup c.items cid with
  | none => none
  | some it =>
    match it.name with
    | some n => some n
    | none =>
      match alookup c.paths cid with
      | none => none
      | some s => s.path.getLast?

/-- Whether child `cid` matches one path segment: its name must equal the
segment's name part, and when the segment carries a `kind@` discriminator,
the child's kind must render to that discriminator string. -/
def segMatches (c : Crate) (seg : Str) (cid : Nat) : Bool :=
  decide (childName c cid = some (parseSeg seg).2) &&
    (match (parseSeg seg).1 with
      | none => true
      | some d =>
        match alookup c.items cid with
        | none => false
        | some it => decide (kind_discriminator it.kind = d))

/-- Modelled from the spec: tree traversal (§4.4 step 2) — descend
child-by-child from `cur`, matching each segment, recording the previous
item as the handle's parent context; returns `(item id, parent id)`. -/
def traverse (c : Crate) : Nat → Option Nat → List Str → Option (Nat × Option Nat)
  | cur, par, [] => some (cur, par)
  | cur, _, seg :: rest =>
    match alookup c.items cur with
    | none => none
    | some it =>
      match it.children.find? (segMatches c seg) with
      | none => none
      | some cid => traverse c cid (some cur) rest

/-- Modelled from the spec: find the loaded crate whose name matches the
package segment under `CrateName` equality (§4.4 step 1; the Navigator's
crate cache is keyed by `CrateName`, whose equality ignores `-`/`_`). -/
def findCrate : List Crate → Str → Option Nat
  | [], _ => none
  | c :: rest, pkg =>
    if eq_ignoring_dash_underscore pkg c.name then some 0
    else (findCrate rest pkg).map (· + 1)

/-- Modelled from the spec: the reverse-index fallback (§4.4 step 3),
trying prefixes longest-first — look the joined prefix up in
`build_path_index`, resolve the id (`get`), and traverse the remaining
segments from it. -/
def fallbackGo (c : Crate) (rest : List Str) : Nat → Option (Nat × Option Nat)
  | 0 => none
  | j + 1 =>
    match alookup (build_path_index c.paths) (joinPath (rest.take (j + 1))) with
    | none => fallbackGo c rest j
    | some id =>
      match alookup c.items id with
      | none => fallbackGo c rest j
      | some _ =>
        match traverse c id none (rest.drop (j + 1)) with
        | some r => some r
        | none => fallbackGo c rest j

/-- Modelled from the spec: `Navigator::resolve_path` (§4.4) — split off the
package segment, find the crate, try tree traversal, then the reverse-index
fallback. -/
def resolve_path (nav : List Crate) (input : Str) : Option Handle :=
  match splitPath input with
  | [] => none
  | pkg :: rest =>
    match findCrate nav pkg with
    | none => none
    | some ci =>
      match nav.get? ci with
      | none => none
      | some c =>
        match traverse c c.root none rest with
        | some r => some ⟨ci, r.1, r.2⟩
        | none =>
          match fallbackGo c rest rest.length with
          | some r => some ⟨ci, r.1, r.2⟩
          | none => none

/-- The parent context a handle's parent id denotes, as
`discriminated_path` sees it: the parent's summary, the key set of the
crate's reverse path index, and the parent item's kind. -/
def parentInfoOf (c : Crate) (pid : Nat) : Option ParentInfo :=
  match alookup c.items pid with
  | none => none
  | some pit =>
    some ⟨c.name, alookup c.paths pid, (build_path_index c.paths).map Prod.fst, pit.kind⟩

/-- The `DR` projection of a handle: the data `discriminated_path` reads
from the `DocRef` that `resolve_path` returned. -/
def drOfHandle (nav : List Crate) (h : Handle) : Option DR :=
  match nav.get? h.crate with
  | none => none
  | some c =>
    match alookup c.items h.id with
    | none => none
    | some it =>
      some { crateName := c.name, summary := alookup c.paths h.id, itemName := it.name,
             kind := it.kind, parent := h.parent.bind (parentInfoOf c) }

/-- `h.discriminated_path()`: the source `discriminated_path` applied to the
handle's `DocRef` data. -/
def dpOfHandle (nav : List Crate) (h : Handle) : Option Str :=
  (drOfHandle nav h).bind discriminated_path

/-- A handle is resolvable when some input string resolves to it. -/
def Resolvable (nav : List Crate) (h : Handle) : Prop :=
  ∃ input, resolve_path nav input = some h

/-! ## Claim C1: counterexample -/

/-- A one-crate navigator whose only item is the crate root module; the
rustdoc export always carries a `paths` entry for the root, with the crate
name as its single path segment. -/
def nav0 : List Crate :=
  [{ name := str "pkg", root := 0,
     items := [(0, { name := some (str "pkg"), kind := .Module, children := [] })],
     paths := [(0, { crate_id := 0, path := [str "pkg"], kind := .Module })] }]

/-- C1 counterexample: the crate-root handle is resolvable (from the bare
package path), its `discriminated_path` is `Some "pkg::mod@pkg"` (the
one-segment summary branch, doc_ref.rs line 165), but resolving that string
fails: the root has no child named `pkg`, and `build_path_index` skips
entries whose path has fewer than two segments, so neither traversal nor
the reverse index can see it — the round-trip law fails on this resolvable
handle. -/
theorem resolve_path_round_trip_fails_on_crate_root :
    resolve_path nav0 (str "pkg") = some ⟨0, 0, none⟩ ∧
    dpOfHandle nav0 ⟨0, 0, none⟩ = some (str "pkg::mod@pkg") ∧
    resolve_path nav0 (str "pkg::mod@pkg") = none := by
  refine ⟨by decide, by decide, by decide⟩

/-! ## String lemmas for the round-trip proof -/

theorem splitPathAux_clean : ∀ (s acc : Str), ':' ∉ s →
    splitPathAux s acc = [acc.reverse ++ s]
  | [], acc, _ => by simp [splitPathAux]
  | [c], acc, _ => by simp [splitPathAux]
  | c1 :: c2 :: rest, acc, h => by
    have hc1 : c1 ≠ ':' := fun hh => h (hh ▸ List.mem_cons_self _ _)
    rw [splitPathAux, if_neg (fun hh => hc1 hh.1)]
    rw [splitPathAux_clean (c2 :: rest) (c1 :: acc)
      (fun hm => h (List.mem_cons_of_mem _ hm))]
    simp

theorem splitPathAux_append_sep : ∀ (s t acc : Str), ':' ∉ s →
    splitPathAux (s ++ ':' :: ':' :: t) acc = (acc.reverse ++ s) :: splitPath t
  | [], t, acc, _ => by
    rw [List.nil_append, splitPathAux, if_pos ⟨rfl, rfl⟩]
    simp [splitPath]
  | c1 :: s', t, acc, h => by
    have hc1 : c1 ≠ ':' := fun hh => h (hh ▸ List.mem_cons_self _ _)
    have h' : ':' ∉ s' := fun hm => h (List.mem_cons_of_mem _ hm)
    cases s' with
    | nil =>
      rw [show (c1 :: []) ++ ':' :: ':' :: t = c1 :: ':' :: ':' :: t from rfl]
      rw [splitPathAux, if_neg (fun hh => hc1 hh.1)]
      rw [splitPathAux, if_pos ⟨rfl, rfl⟩]
      simp [splitPath]
    | cons c2 s'' =>
      rw [show (c1 :: c2 :: s'') ++ ':' :: ':' :: t =
        c1 :: c2 :: (s'' ++ ':' :: ':' :: t) from rfl]
      rw [splitPathAux, if_neg (fun hh => hc1 hh.1)]
      rw [show c2 :: (s'' ++ ':' :: ':' :: t) = (c2 :: s'') ++ ':' :: ':' :: t from rfl]
      rw [splitPathAux_append_sep (c2 :: s'') t (c1 :: acc) h']
      simp

theorem splitPath_joinPath : ∀ (segs : List Str), segs ≠ [] → (∀ s ∈ segs, ':' ∉ s) →
    splitPath (joinPath segs) = segs
  | [], hne, _ => absurd rfl hne
  | [s], _, h => by
    rw [show joinPath [s] = s from rfl, splitPath,
      splitPathAux_clean s [] (h s (List.mem_singleton.mpr rfl))]
    simp
  | s :: s2 :: rest, _, h => by
    rw [show joinPath (s :: s2 :: rest) = s ++ ':' :: ':' :: joinPath (s2 :: rest) from rfl]
    rw [splitPath, splitPathAux_append_sep s (joinPath (s2 :: rest)) []
      (h s (List.mem_cons_self _ _))]
    rw [splitPath_joinPath (s2 :: rest) (by simp)
      (fun x hx => h x (List.mem_cons_of_mem _ hx))]
    simp

theorem joinPath_cons (x : Str) (xs : List Str) (hxs : xs ≠ []) :
    joinPath (x :: xs) = x ++ ':' :: ':' :: joinPath xs := by
  cases xs with
  | nil => exact absurd rfl hxs
  | cons y ys => rfl

theorem joinPath_append_last : ∀ (xs : List Str) (y : Str), xs ≠ [] →
    joinPath (xs ++ [y]) = joinPath xs ++ ':' :: ':' :: y
  | [], _, hxs => absurd rfl hxs
  | [x], y, _ => by simp [joinPath]
  | x :: z :: zs, y, _ => by
    rw [show (x :: z :: zs) ++ [y] = x :: ((z :: zs) ++ [y]) from rfl]
    rw [joinPath_cons x ((z :: zs) ++ [y]) (by simp)]
    rw [joinPath_append_last (z :: zs) y (by simp)]
    rw [joinPath_cons x (z :: zs) (by simp)]
    simp

theorem joinPath_ne_nil {x : Str} (xs : List Str) (hx : x ≠ []) :
    joinPath (x :: xs) ≠ [] := by
  cases xs with
  | nil => exact hx
  | cons y ys =>
    rw [joinPath_cons x (y :: ys) (by simp)]
    cases x with
    | nil => exact absurd rfl hx
    | cons c cs => simp

theorem count_joinPath (l : List Str) :
    (joinPath l).count '@' = (l.map fun s => s.count '@').sum := by
  induction l with
  | nil => rfl
  | cons x xs ih =>
    cases xs with
    | nil => simp [joinPath]
    | cons y ys =>
      rw [joinPath_cons x (y :: ys) (by simp), List.count_append]
      rw [List.count_cons_of_ne (by decide), List.count_cons_of_ne (by decide), ih]
      simp

theorem count_eq_zero_of_not_mem_at {s : Str} (h : '@' ∉ s) : s.count '@' = 0 :=
  List.count_eq_zero.mpr h

theorem rfindSep_eq_none {s : Str} (h : ':' ∉ s) : rfindSep s = none := by
  induction s with
  | nil => rfl
  | cons c rest ih =>
    have hc : c ≠ ':' := fun hh => h (hh ▸ List.mem_cons_self _ _)
    rw [rfindSep, ih (fun hm => h (List.mem_cons_of_mem _ hm))]
    show (if c = ':' ∧ rest.head? = some ':' then some 0 else none) = none
    rw [if_neg (fun hh => hc hh.1)]

theorem rfindSep_cons_of_some {c : Char} {t : Str} {i : Nat} (h : rfindSep t = some i) :
    rfindSep (c :: t) = some (i + 1) := by
  rw [rfindSep, h]

theorem rfindSep_sep_clean {v : Str} (hv : ':' ∉ v) :
    rfindSep (':' :: ':' :: v) = some 0 := by
  have h1 : rfindSep v = none := rfindSep_eq_none hv
  have h2 : rfindSep (':' :: v) = none := by
    rw [rfindSep, h1]
    show (if ':' = ':' ∧ v.head? = some ':' then some 0 else none) = none
    rw [if_neg]
    rintro ⟨-, hh⟩
    cases v with
    | nil => exact absurd hh (by simp)
    | cons a as =>
      rw [List.head?_cons] at hh
      exact hv (Option.some.inj hh ▸ List.mem_cons_self _ _)
  rw [rfindSep, h2]
  show (if ':' = ':' ∧ (':' :: v).head? = some ':' then some 0 else none) = some 0
  rw [if_pos ⟨rfl, rfl⟩]

theorem rfindSep_join_sep : ∀ (w : Str) {v : Str}, ':' ∉ v →
    rfindSep (w ++ ':' :: ':' :: v) = some w.length
  | [], v, hv => by
    rw [List.nil_append]
    rw [rfindSep_sep_clean hv]
    rfl
  | c :: w', v, hv => by
    rw [List.cons_append, rfindSep_cons_of_some (rfindSep_join_sep w' hv)]
    rfl

theorem rfindSep_shape : ∀ {s : Str} {i : Nat}, rfindSep s = some i →
    ∃ u v, s = u ++ ':' :: ':' :: v ∧ u.length = i := by
  intro s
  induction s with
  | nil => intro i h; exact absurd h (by simp [rfindSep])
  | cons c rest ih =>
    intro i h
    rw [rfindSep] at h
    cases hr : rfindSep rest with
    | some i' =>
      rw [hr] at h
      obtain rfl : i' + 1 = i := Option.some.inj h
      obtain ⟨u, v, hrest, hlen⟩ := ih hr
      exact ⟨c :: u, v, by rw [hrest, List.cons_append], by simp [hlen]⟩
    | none =>
      rw [hr] at h
      by_cases hcond : c = ':' ∧ rest.head? = some ':'
      · rw [if_pos hcond] at h
        obtain rfl : (0 : Nat) = i := Option.some.inj h
        obtain ⟨hc, hh⟩ := hcond
        cases rest with
        | nil => exact absurd hh (by simp)
        | cons a as =>
          rw [List.head?_cons] at hh
          obtain rfl : a = ':' := Option.some.inj hh
          exact ⟨[], as, by simp [hc], rfl⟩
      · rw [if_neg hcond] at h
        exact absurd h (by simp)

theorem rsplitSep_single {s : Str} (h : ':' ∉ s) : rsplitSep s = ([], s) := by
  rw [rsplitSep, rfindSep_eq_none h]

theorem rsplitSep_join {xs : List Str} {y : Str} (hxs : xs ≠ []) (hy : ':' ∉ y) :
    rsplitSep (joinPath (xs ++ [y])) = (joinPath xs ++ [':', ':'], y) := by
  rw [joinPath_append_last xs y hxs]
  rw [rsplitSep, rfindSep_join_sep (joinPath xs) hy]
  have hsplit : joinPath xs ++ ':' :: ':' :: y = (joinPath xs ++ [':', ':']) ++ y := by
    simp
  have hlen : (joinPath xs).length + 2 = (joinPath xs ++ [':', ':']).length := by simp
  show ((joinPath xs ++ ':' :: ':' :: y).take ((joinPath xs).length + 2),
      (joinPath xs ++ ':' :: ':' :: y).drop ((joinPath xs).length + 2)) =
    (joinPath xs ++ [':', ':'], y)
  rw [hsplit, hlen, List.take_left, List.drop_left]

theorem rsplitSep_parts_mem {s : Str} :
    (∀ c ∈ (rsplitSep s).1, c ∈ s) ∧ (∀ c ∈ (rsplitSep s).2, c ∈ s) := by
  rw [rsplitSep]
  cases h : rfindSep s with
  | none => exact ⟨fun c hc => absurd hc (by simp), fun c hc => hc⟩
  | some i => exact ⟨fun c hc => List.mem_of_mem_take hc, fun c hc => List.mem_of_mem_drop hc⟩

theorem rsplitSep_append_eq {s : Str} : (rsplitSep s).1 ++ (rsplitSep s).2 = s := by
  rw [rsplitSep]
  cases h : rfindSep s with
  | none => rfl
  | some i => exact List.take_append_drop _ s

theorem rsplitSep_first_shape {s : Str} :
    (rsplitSep s).1 = [] ∨ ∃ u, (rsplitSep s).1 = u ++ [':', ':'] := by
  rw [rsplitSep]
  cases h : rfindSep s with
  | none => exact Or.inl rfl
  | some i =>
    obtain ⟨u, v, rfl, hlen⟩ := rfindSep_shape h
    refine Or.inr ⟨u, ?_⟩
    have hsplit : u ++ ':' :: ':' :: v = (u ++ [':', ':']) ++ v := by simp
    have hlen2 : i + 2 = (u ++ [':', ':']).length := by simp [← hlen]
    show (u ++ ':' :: ':' :: v).take (i + 2) = u ++ [':', ':']
    rw [hsplit, hlen2, List.take_left]

theorem splitAtAt_of_not_mem {s : Str} (h : '@' ∉ s) : splitAtAt s = none := by
  induction s with
  | nil => rfl
  | cons c rest ih =>
    have hc : c ≠ '@' := fun hh => h (hh ▸ List.mem_cons_self _ _)
    rw [splitAtAt, if_neg hc, ih (fun hm => h (List.mem_cons_of_mem _ hm))]

theorem splitAtAt_append {d n : Str} (h : '@' ∉ d) : splitAtAt (d ++ '@' :: n) = some (d, n) := by
  induction d with
  | nil =>
    rw [List.nil_append, splitAtAt, if_pos rfl]
  | cons c d' ih =>
    have hc : c ≠ '@' := fun hh => h (hh ▸ List.mem_cons_self _ _)
    rw [List.cons_append, splitAtAt, if_neg hc,
      ih (fun hm => h (List.mem_cons_of_mem _ hm))]

theorem parseSeg_disc {d n : Str} (h : '@' ∉ d) : parseSeg (d ++ '@' :: n) = (some d, n) := by
  rw [parseSeg, splitAtAt_append h]

theorem parseSeg_plain {s : Str} (h : '@' ∉ s) : parseSeg s = (none, s) := by
  rw [parseSeg, splitAtAt_of_not_mem h]

/-- Recovery of the bucket key and discriminator from a kind-qualified key:
on `@`-free bucket keys, `qualKeyOf` is injective up to discriminator
strings. -/
theorem qualKeyOf_inj {k k' : Str} {a b : ItemKind} (hk : '@' ∉ k) (hk' : '@' ∉ k')
    (heq : qualKeyOf k a = qualKeyOf k' b) :
    k = k' ∧ kind_discriminator a = kind_discriminator b := by
  have hdisc := fun kk => (kind_discriminator_clean kk).2.2
  have hdiscc := fun kk => (kind_discriminator_clean kk).2.1
  have hp1 : '@' ∉ (rsplitSep k).1 ++ kind_discriminator a := by
    intro hm
    rcases List.mem_append.mp hm with hm | hm
    · exact hk (rsplitSep_parts_mem.1 _ hm)
    · exact hdisc a hm
  have hp1' : '@' ∉ (rsplitSep k').1 ++ kind_discriminator b := by
    intro hm
    rcases List.mem_append.mp hm with hm | hm
    · exact hk' (rsplitSep_parts_mem.1 _ hm)
    · exact hdisc b hm
  have hshape : ∀ (s : Str) (kk : ItemKind), qualKeyOf s kk =
      ((rsplitSep s).1 ++ kind_discriminator kk) ++ '@' :: (rsplitSep s).2 := by
    intro s kk
    rw [qualKeyOf]
  rw [hshape k a, hshape k' b] at heq
  have hsa := splitAtAt_append (n := (rsplitSep k).2) hp1
  have hsb := splitAtAt_append (n := (rsplitSep k').2) hp1'
  rw [heq] at hsa
  rw [hsb] at hsa
  obtain ⟨h1, h2⟩ := Prod.mk.inj (Option.some.inj hsa)
  -- h1 : prefix ++ disc equal; h2 : last parts equal
  have hrgen : ∀ (p : Str) (kk : ItemKind), (p = [] ∨ ∃ u, p = u ++ [':', ':']) →
      rsplitSep (p ++ kind_discriminator kk) = (p, kind_discriminator kk) := by
    rintro p kk (rfl | ⟨u, rfl⟩)
    · rw [List.nil_append, rsplitSep_single (hdiscc kk)]
    · have hassoc : (u ++ [':', ':']) ++ kind_discriminator kk =
          u ++ ':' :: ':' :: kind_discriminator kk := by simp
      rw [hassoc, rsplitSep, rfindSep_join_sep u (hdiscc kk)]
      have hlen : u.length + 2 = (u ++ [':', ':']).length := by simp
      have hsplit : u ++ ':' :: ':' :: kind_discriminator kk =
          (u ++ [':', ':']) ++ kind_discriminator kk := by simp
      show ((u ++ ':' :: ':' :: kind_discriminator kk).take (u.length + 2),
          (u ++ ':' :: ':' :: kind_discriminator kk).drop (u.length + 2)) =
        (u ++ [':', ':'], kind_discriminator kk)
      rw [hsplit, hlen, List.take_left, List.drop_left]
  have hr1 : rsplitSep ((rsplitSep k).1 ++ kind_discriminator a) =
      ((rsplitSep k).1, kind_discriminator a) :=
    hrgen _ a (rsplitSep_first_shape (s := k))
  have hr2 : rsplitSep ((rsplitSep k').1 ++ kind_discriminator b) =
      ((rsplitSep k').1, kind_discriminator b) :=
    hrgen _ b (rsplitSep_first_shape (s := k'))
  rw [← h1] at hr1
  have hpair := hr1.symm.trans hr2
  obtain ⟨h3, h4⟩ := Prod.mk.inj hpair
  refine ⟨?_, h4⟩
  have hk1 : k = (rsplitSep k).1 ++ (rsplitSep k).2 := rsplitSep_append_eq.symm
  have hk2 : k' = (rsplitSep k').1 ++ (rsplitSep k').2 := rsplitSep_append_eq.symm
  rw [hk1, hk2, h3, ← h2]

theorem count_at_qualKeyOf {k : Str} (hk : '@' ∉ k) (kind : ItemKind) :
    (qualKeyOf k kind).count '@' = 1 := by
  rw [qualKeyOf, List.count_append, List.count_append]
  rw [count_eq_zero_of_not_mem_at (fun hm => hk (rsplitSep_parts_mem.1 _ hm))]
  rw [count_eq_zero_of_not_mem_at ((kind_discriminator_clean kind).2.2)]
  rw [List.count_cons_self]
  rw [count_eq_zero_of_not_mem_at (fun hm => hk (rsplitSep_parts_mem.2 _ hm))]

/-! ## Value lemmas for the reverse path index -/

theorem mem_entriesOf_iff {paths : List (Nat × ItemSummary)} {key : Str} {v : Nat} :
    (key, v) ∈ entriesOf paths ↔
      ∃ k ∈ groupKeys paths,
        (∃ kind, (v, kind) ∈ groupOf paths k ∧ key = qualKeyOf k kind) ∨
          (key = k ∧ ∃ it, groupOf paths k = [it] ∧ v = it.1) := by
  unfold entriesOf
  rw [List.mem_flatMap]
  constructor
  · rintro ⟨g, hg, hmem⟩
    obtain ⟨hgk, hgv⟩ := mem_byUnqualified hg
    refine ⟨g.1, hgk, ?_⟩
    rcases List.mem_append.mp hmem with h | h
    · obtain ⟨it, hit, hpair⟩ := List.mem_map.mp h
      obtain ⟨h1, h2⟩ := Prod.mk.inj hpair
      refine Or.inl ⟨it.2, ?_, h1.symm⟩
      rw [hgv] at hit
      have hvit : (v, it.2) = it := by
        rw [← h2]
      exact hvit ▸ hit
    · rcases hg2 : g.2 with _ | ⟨it, rest⟩
      · rw [hg2] at h
        exact absurd h (by simp)
      · rcases rest with _ | ⟨it2, rest2⟩
        · rw [hg2] at h
          obtain ⟨h1, h2⟩ := Prod.mk.inj (List.mem_singleton.mp h)
          exact Or.inr ⟨h1, it, hgv ▸ hg2, h2⟩
        · rw [hg2] at h
          exact absurd h (by simp)
  · rintro ⟨k, hk, hcase⟩
    refine ⟨(k, groupOf paths k), byUnqualified_mem_of_key hk, ?_⟩
    rcases hcase with ⟨kind, hmem, hq⟩ | ⟨hkk, it, hsingle, hv⟩
    · exact List.mem_append.mpr (Or.inl (List.mem_map.mpr ⟨(v, kind), hmem, by rw [hq]⟩))
    · refine List.mem_append.mpr (Or.inr ?_)
      rw [hsingle]
      simp [hkk, hv]

theorem alookup_build_eq_some_of {paths : List (Nat × ItemSummary)} {key : Str} {v : Nat}
    (hexists : (key, v) ∈ entriesOf paths)
    (hagree : ∀ p ∈ entriesOf paths, p.1 = key → p.2 = v) :
    alookup (build_path_index paths) key = some v := by
  rw [build_path_index_eq_reverse]
  exact alookup_eq_some_of_mem_of_agree (List.mem_reverse.mpr hexists)
    fun p hp => hagree p (List.mem_reverse.mp hp)

theorem alookup_build_mem {paths : List (Nat × ItemSummary)} {key : Str} {v : Nat}
    (h : alookup (build_path_index paths) key = some v) : (key, v) ∈ entriesOf paths := by
  rw [build_path_index_eq_reverse] at h
  exact List.mem_reverse.mp (alookup_mem h)

/-- The decomposition of an unqualified group key, with the cleanliness of
its segments. -/
theorem groupKey_parts {paths : List (Nat × ItemSummary)}
    (hclean : ∀ p ∈ paths, ∀ seg ∈ p.2.path, SegClean seg)
    {id : Nat} {s : ItemSummary} {k : Str}
    (hmem : (id, s) ∈ paths) (hkey : groupKeyOf s = some k) :
    ∃ p0 tail, s.path = p0 :: tail ∧ tail ≠ [] ∧ k = joinPath tail ∧
      ∀ seg ∈ tail, SegClean seg := by
  obtain ⟨-, p0, tail, hpath, htne, hkk⟩ := groupKeyOf_eq_some hkey
  exact ⟨p0, tail, hpath, htne, hkk,
    fun seg hseg => hclean (id, s) hmem seg (by rw [hpath]; exact List.mem_cons_of_mem _ hseg)⟩

theorem groupKeys_no_at {paths : List (Nat × ItemSummary)}
    (hclean : ∀ p ∈ paths, ∀ seg ∈ p.2.path, SegClean seg)
    {k : Str} (hk : k ∈ groupKeys paths) : '@' ∉ k := by
  obtain ⟨p, hp, hpk⟩ := mem_groupKeys_iff.mp hk
  obtain ⟨p0, tail, hpath, htne, rfl, hsegs⟩ := groupKey_parts hclean hp hpk
  rw [mem_joinPath_iff (by decide)]
  rintro ⟨seg, hseg, hat⟩
  exact (hsegs seg hseg).2.2 hat

/-- Looking up a kind-qualified key returns the id of the unique matching
item, given qualified-key injectivity of the export data. -/
theorem alookup_build_qualified {paths : List (Nat × ItemSummary)}
    (hclean : ∀ p ∈ paths, ∀ seg ∈ p.2.path, SegClean seg)
    (hinj : ∀ p q, p ∈ paths → q ∈ paths → ∀ kp kq, groupKeyOf p.2 = some kp →
      groupKeyOf q.2 = some kq → kp = kq →
      kind_discriminator p.2.kind = kind_discriminator q.2.kind → p.1 = q.1)
    {id : Nat} {s : ItemSummary} {k : Str}
    (hmem : (id, s) ∈ paths) (hkey : groupKeyOf s = some k) :
    alookup (build_path_index paths) (qualKeyOf k s.kind) = some id := by
  have hkmem : k ∈ groupKeys paths := mem_groupKeys_iff.mpr ⟨(id, s), hmem, hkey⟩
  have hknoat : '@' ∉ k := groupKeys_no_at hclean hkmem
  apply alookup_build_eq_some_of
  · exact mem_entriesOf_iff.mpr
      ⟨k, hkmem, Or.inl ⟨s.kind, mem_groupOf_iff.mpr ⟨s, hmem, hkey, rfl⟩, rfl⟩⟩
  · rintro ⟨key', v'⟩ hp hkeq
    have hkeq' : key' = qualKeyOf k s.kind := hkeq
    obtain ⟨k', hk', hcase⟩ := mem_entriesOf_iff.mp hp
    rcases hcase with ⟨kind', hmem', hq⟩ | ⟨hkk, it, hsingle, hv⟩
    · have hk'noat : '@' ∉ k' := groupKeys_no_at hclean hk'
      have heq2 : qualKeyOf k' kind' = qualKeyOf k s.kind := by
        rw [← hq]
        exact hkeq'
      obtain ⟨hkeq2, hdeq⟩ := qualKeyOf_inj hk'noat hknoat heq2
      obtain ⟨s', hm', hgk', hkind'⟩ := mem_groupOf_iff.mp hmem'
      exact hinj (v', s') (id, s) hm' hmem k' k hgk' hkey hkeq2 (by rw [hkind', hdeq])
    · exfalso
      have hk'noat : '@' ∉ k' := groupKeys_no_at hclean hk'
      have : '@' ∈ key' := by
        rw [hkeq']
        exact mem_at_qualKeyOf k s.kind
      rw [hkk] at this
      exact hk'noat this

/-- Looking up an unqualified (`@`-free) key returns the id of any `paths`
entry whose group key it is: unqualified keys are inserted only for
single-item buckets. -/
theorem alookup_build_unqualified {paths : List (Nat × ItemSummary)}
    {key : Str} {x : Nat} (hknoat : '@' ∉ key)
    (hlook : alookup (build_path_index paths) key = some x)
    {pid : Nat} {ps : ItemSummary}
    (hpmem : (pid, ps) ∈ paths) (hpkey : groupKeyOf ps = some key) : x = pid := by
  obtain ⟨k', hk', hcase⟩ := mem_entriesOf_iff.mp (alookup_build_mem hlook)
  rcases hcase with ⟨kind', hmem', hq⟩ | ⟨hkk, it, hsingle, hv⟩
  · exact absurd (hq ▸ mem_at_qualKeyOf k' kind') hknoat
  · subst hkk
    have hin : (pid, ps.kind) ∈ groupOf paths key :=
      mem_groupOf_iff.mpr ⟨ps, hpmem, hpkey, rfl⟩
    rw [hsingle] at hin
    obtain ⟨h1, -⟩ := Prod.mk.inj (List.mem_singleton.mp hin)
    rw [hv, ← h1]

/-- Every key present in the reverse path index contains at most one `@`. -/
theorem alookup_build_count_at {paths : List (Nat × ItemSummary)}
    (hclean : ∀ p ∈ paths, ∀ seg ∈ p.2.path, SegClean seg)
    {key : Str} {v : Nat}
    (hlook : alookup (build_path_index paths) key = some v) : key.count '@' ≤ 1 := by
  obtain ⟨k', hk', hcase⟩ := mem_entriesOf_iff.mp (alookup_build_mem hlook)
  have hk'noat : '@' ∉ k' := groupKeys_no_at hclean hk'
  rcases hcase with ⟨kind', hmem', hq⟩ | ⟨hkk, it, hsingle, hv⟩
  · rw [hq, count_at_qualKeyOf hk'noat]
  · rw [hkk, count_eq_zero_of_not_mem_at hk'noat]
    exact Nat.zero_le 1

/-! ## Well-formed export data

The round-trip law cannot hold of arbitrary item graphs (e.g. two distinct
items with the same path and discriminator make the qualified key
ambiguous); `CrateWF` states the coherence properties of a well-formed
rustdoc export that the resolver design relies on, each decidable so a
witness can check them on concrete data. -/

/-- `true` when an optional traversal result, if present, carries this item
id. -/
def idMatches (o : Option (Nat × Option Nat)) (i : Nat) : Bool :=
  match o with
  | none => true
  | some r => r.1 == i

/-- The segments of a summary's discriminated path after the crate name:
the path tail with `kind@` attached to the final segment — what both
`discriminated_path` emits and `build_path_index` indexes. -/
def discSegsOf (s : ItemSummary) : List Str :=
  s.path.tail.dropLast ++
    [kind_discriminator s.kind ++ '@' :: (s.path.tail.getLast?.getD [])]

/-- Well-formedness of one loaded crate's export data. -/
structure CrateWF (c : Crate) : Prop where
  /-- The crate's canonical name is a clean segment. -/
  nameClean : SegClean c.name
  /-- Item names are clean segments. -/
  itemNamesClean : ∀ p ∈ c.items, ∀ n, p.2.name = some n → SegClean n
  /-- Path-summary segments are clean. -/
  pathSegsClean : ∀ p ∈ c.paths, ∀ seg ∈ p.2.path, SegClean seg
  /-- `paths` records local items only. -/
  localPaths : ∀ p ∈ c.paths, p.2.crate_id = 0
  /-- An item's own kind agrees with its path summary's kind. -/
  kindAgree : ∀ p ∈ c.paths, ∀ it, alookup c.items p.1 = some it → it.kind = p.2.kind
  /-- Two summaries with the same path and the same discriminator describe
  the same item (qualified keys are unambiguous). -/
  discKeyInj : ∀ p q, p ∈ c.paths → q ∈ c.paths → ∀ kp kq, groupKeyOf p.2 = some kp →
    groupKeyOf q.2 = some kq → kp = kq →
    kind_discriminator p.2.kind = kind_discriminator q.2.kind → p.1 = q.1
  /-- Tree/paths coherence: traversing an item's own discriminated path, if
  it succeeds at all, lands on that item. -/
  coherent1 : ∀ p ∈ c.paths, ∀ k, groupKeyOf p.2 = some k →
    idMatches (traverse c c.root none (discSegsOf p.2)) p.1 = true
  /-- Tree/paths coherence for unambiguous paths: when an item's unqualified
  key is in the reverse index, traversing its plain path, if it succeeds,
  lands on that item. -/
  coherent2 : ∀ p ∈ c.paths, ∀ k, groupKeyOf p.2 = some k →
    containsKey (build_path_index c.paths) k = true →
    idMatches (traverse c c.root none p.2.path.tail) p.1 = true

/-- Well-formedness of a navigator: pairwise-distinct crate names (under
`CrateName` equality, both directions) and well-formed crates. -/
structure NavWF (nav : List Crate) : Prop where
  namesDisj : List.Pairwise (fun c1 c2 =>
    eq_ignoring_dash_underscore c1.name c2.name = false ∧
    eq_ignoring_dash_underscore c2.name c1.name = false) nav
  crates : ∀ c ∈ nav, CrateWF c

theorem groupKeyOf_mk {s : ItemSummary} (h0 : s.crate_id = 0) {p0 : Str} {tail : List Str}
    (hpath : s.path = p0 :: tail) (htne : tail ≠ []) :
    groupKeyOf s = some (joinPath tail) := by
  unfold groupKeyOf
  rw [if_neg (fun hne => hne h0), hpath, List.tail_cons,
    if_neg (by simp : ¬(p0 :: tail = [])), if_neg htne]

theorem idMatches_some {o : Option (Nat × Option Nat)} {i : Nat} {r : Nat × Option Nat}
    (h : idMatches o i = true) (ho : o = some r) : r.1 = i := by
  rw [ho] at h
  simp only [idMatches] at h
  exact eq_of_beq h

/-! ## Traversal lemmas -/

theorem traverse_append (c : Crate) : ∀ (xs ys : List Str) (cur : Nat) (par : Option Nat),
    traverse c cur par (xs ++ ys) =
      (traverse c cur par xs).bind fun r => traverse c r.1 r.2 ys
  | [], ys, cur, par => by simp [traverse]
  | seg :: xs, ys, cur, par => by
    show traverse c cur par (seg :: (xs ++ ys)) = _
    cases h : alookup c.items cur with
    | none => simp [traverse, h]
    | some it =>
      cases hf : it.children.find? (segMatches c seg) with
      | none => simp [traverse, h, hf]
      | some cid =>
        simp only [traverse, h, hf]
        exact traverse_append c xs ys cid (some cur)

theorem traverse_last_step (c : Crate) : ∀ (segs : List Str) (cur : Nat) (par : Option Nat)
    {id : Nat} {parOut : Option Nat},
    traverse c cur par segs = some (id, parOut) →
    (segs = [] ∧ id = cur ∧ parOut = par) ∨
      (∃ pid pit seg, parOut = some pid ∧ alookup c.items pid = some pit ∧
        pit.children.find? (segMatches c seg) = some id)
  | [], cur, par, id, parOut, h => by
    left
    obtain ⟨h1, h2⟩ := Prod.mk.inj (Option.some.inj h)
    exact ⟨rfl, h1.symm, h2.symm⟩
  | seg :: rest, cur, par, id, parOut, h => by
    right
    cases hit : alookup c.items cur with
    | none => simp [traverse, hit] at h
    | some it =>
      cases hf : it.children.find? (segMatches c seg) with
      | none => simp [traverse, hit, hf] at h
      | some cid =>
        simp only [traverse, hit, hf] at h
        rcases traverse_last_step c rest cid (some cur) h with ⟨hnil, hid, hpar⟩ | hind
        · refine ⟨cur, it, seg, hpar, hit, ?_⟩
          rw [← hid] at hf
          exact hf
        · exact hind

theorem traverse_parent_good {c : Crate} {start : Nat} {segs : List Str} {rid : Nat}
    {rpar : Option Nat} (htr : traverse c start none segs = some (rid, rpar)) :
    ∀ pid, rpar = some pid → ∃ pit seg, alookup c.items pid = some pit ∧
      pit.children.find? (segMatches c seg) = some rid := by
  intro pid hpid
  rcases traverse_last_step c segs start none htr with ⟨-, -, hpar⟩ | h
  · rw [hpar] at hpid
    exact absurd hpid (by simp)
  · obtain ⟨pid', pit, seg, hpar, hpit, hfind⟩ := h
    rw [hpar] at hpid
    obtain rfl : pid' = pid := Option.some.inj hpid
    exact ⟨pit, seg, hpit, hfind⟩

theorem fallbackGo_from_traverse (c : Crate) (rest : List Str) : ∀ (j : Nat) {r : Nat × Option Nat},
    fallbackGo c rest j = some r →
    ∃ start segs, traverse c start none segs = some r
  | 0, r, h => by simp [fallbackGo] at h
  | j + 1, r, h => by
    unfold fallbackGo at h
    cases hl : alookup (build_path_index c.paths) (joinPath (rest.take (j + 1))) with
    | none =>
      simp only [hl] at h
      exact fallbackGo_from_traverse c rest j h
    | some id =>
      simp only [hl] at h
      cases hi : alookup c.items id with
      | none =>
        simp only [hi] at h
        exact fallbackGo_from_traverse c rest j h
      | some it =>
        simp only [hi] at h
        cases ht : traverse c id none (rest.drop (j + 1)) with
        | none =>
          simp only [ht] at h
          exact fallbackGo_from_traverse c rest j h
        | some r' =>
          simp only [ht] at h
          obtain rfl : r' = r := Option.some.inj h
          exact ⟨id, rest.drop (j + 1), ht⟩

theorem find?_switch {α : Type} (P Q : α → Bool) : ∀ (l : List α) (a : α),
    (∀ x, Q x = true → P x = true) → Q a = true → l.find? P = some a → l.find? Q = some a
  | [], a, _, _, h => by simp at h
  | x :: xs, a, hPQ, hQa, h => by
    by_cases hPx : P x = true
    · rw [List.find?_cons_of_pos _ hPx] at h
      obtain rfl : x = a := Option.some.inj h
      rw [List.find?_cons_of_pos _ hQa]
    · have hPx' : P x = false := by
        cases hP : P x
        · rfl
        · exact absurd hP hPx
      have hQx' : Q x = false := by
        cases hQ : Q x
        · rfl
        · exact absurd (hPQ x hQ) hPx
      rw [List.find?_cons_of_neg _ (by simp [hPx'])] at h
      rw [List.find?_cons_of_neg _ (by simp [hQx'])]
      exact find?_switch P Q xs a hPQ hQa h

theorem childName_of_name {c : Crate} {cid : Nat} {it : Item} {nm : Str}
    (hit : alookup c.items cid = some it) (hname : it.name = some nm) :
    childName c cid = some nm := by
  unfold childName
  simp [hit, hname]

theorem segMatches_name {c : Crate} {seg : Str} {cid : Nat}
    (h : segMatches c seg cid = true) : childName c cid = some (parseSeg seg).2 := by
  unfold segMatches at h
  simp only [Bool.and_eq_true] at h
  exact of_decide_eq_true h.1

theorem segMatches_disc {c : Crate} {seg : Str} {cid : Nat} {d : Str}
    (h : segMatches c seg cid = true) (hd : (parseSeg seg).1 = some d)
    {it : Item} (hit : alookup c.items cid = some it) :
    kind_discriminator it.kind = d := by
  unfold segMatches at h
  simp only [Bool.and_eq_true] at h
  obtain ⟨-, h2⟩ := h
  rw [hd] at h2
  simp only [hit] at h2
  exact of_decide_eq_true h2

theorem segMatches_intro {c : Crate} {seg : Str} {cid : Nat}
    (hname : childName c cid = some (parseSeg seg).2)
    (hdisc : ∀ d, (parseSeg seg).1 = some d →
      ∃ it, alookup c.items cid = some it ∧ kind_discriminator it.kind = d) :
    segMatches c seg cid = true := by
  unfold segMatches
  rw [Bool.and_eq_true]
  refine ⟨decide_eq_true hname, ?_⟩
  cases hp : (parseSeg seg).1 with
  | none => rfl
  | some d =>
    obtain ⟨it, hit, hk⟩ := hdisc d hp
    rw [hit]
    exact decide_eq_true hk

/-- First-match stability: if a child was the first match for *some*
segment, it is also the first match for its own fully discriminated
segment. -/
theorem find?_segMatches_stable {c : Crate} {children : List Nat} {seg : Str} {hid : Nat}
    {it : Item} {nm : Str}
    (hit : alookup c.items hid = some it) (hname : it.name = some nm)
    (hfound : children.find? (segMatches c seg) = some hid) :
    children.find? (segMatches c (kind_discriminator it.kind ++ '@' :: nm)) = some hid := by
  have hparse : parseSeg (kind_discriminator it.kind ++ '@' :: nm) =
      (some (kind_discriminator it.kind), nm) :=
    parseSeg_disc (kind_discriminator_clean it.kind).2.2
  have hPhid : segMatches c seg hid = true := List.find?_some hfound
  have hcn : childName c hid = some nm := childName_of_name hit hname
  have hnm0 : (parseSeg seg).2 = nm := by
    have := segMatches_name hPhid
    rw [hcn] at this
    exact (Option.some.inj this).symm
  apply find?_switch (segMatches c seg)
    (segMatches c (kind_discriminator it.kind ++ '@' :: nm)) children hid
  · intro x hQx
    have hxname := segMatches_name hQx
    rw [hparse] at hxname
    apply segMatches_intro
    · rw [hnm0]
      exact hxname
    · intro d hd
      have hdisc_hid := segMatches_disc hPhid hd hit
      cases hx : alookup c.items x with
      | none =>
        exfalso
        unfold segMatches at hQx
        simp only [Bool.and_eq_true] at hQx
        obtain ⟨-, h2⟩ := hQx
        rw [hparse] at h2
        simp only [hx] at h2
        exact absurd h2 (by simp)
      | some xit =>
        refine ⟨xit, rfl, ?_⟩
        have hxd := segMatches_disc hQx (by rw [hparse]) hx
        rw [hxd, hdisc_hid]
  · exact segMatches_intro (by rw [hparse]; exact hcn)
      (fun d hd => ⟨it, hit, by rw [hparse] at hd; rw [← Option.some.inj hd]⟩)
  · exact hfound

theorem findCrate_self : ∀ (nav : List Crate), List.Pairwise (fun c1 c2 =>
      eq_ignoring_dash_underscore c1.name c2.name = false ∧
      eq_ignoring_dash_underscore c2.name c1.name = false) nav →
    ∀ (i : Nat) (c : Crate), nav.get? i = some c → findCrate nav c.name = some i
  | [], _, i, c, h => by simp at h
  | c0 :: rest, hpw, 0, c, h => by
    obtain rfl : c0 = c := Option.some.inj h
    rw [findCrate, if_pos (eq_ignoring_dash_underscore_refl _)]
  | c0 :: rest, hpw, i + 1, c, h => by
    have hmem : c ∈ rest := List.get?_mem (by exact h)
    have hdisj := (List.pairwise_cons.mp hpw).1 c hmem
    rw [findCrate, if_neg (by simp [hdisj.2])]
    rw [findCrate_self rest (List.pairwise_cons.mp hpw).2 i c (by exact h)]
    rfl

/-! ## Assembly lemmas for the round-trip proof -/

theorem str_sep_eq : str "::" = [':', ':'] := rfl

theorem discSeg_no_colon {k : ItemKind} {nm : Str} (hnm : ':' ∉ nm) :
    ':' ∉ kind_discriminator k ++ '@' :: nm := by
  intro hmem
  rcases List.mem_append.mp hmem with hmem | hmem
  · exact (kind_discriminator_clean k).2.1 hmem
  · rcases List.mem_cons.mp hmem with hmem | hmem
    · exact absurd hmem (by decide)
    · exact hnm hmem

theorem count_discSeg {k : ItemKind} {nm : Str} (hnm : '@' ∉ nm) :
    (kind_discriminator k ++ '@' :: nm).count '@' = 1 := by
  rw [List.count_append, count_eq_zero_of_not_mem_at (kind_discriminator_clean k).2.2,
    List.count_cons_self, count_eq_zero_of_not_mem_at hnm]

theorem dpFromSummary_eq_join (crateName disc : Str) (p0 last : Str) (init : List Str)
    (hinit : ∀ seg ∈ init, seg ≠ []) :
    dpFromSummary crateName disc (p0 :: (init ++ [last])) =
      some (joinPath (crateName :: (init ++ [disc ++ '@' :: last]))) := by
  simp only [dpFromSummary, List.getLast?_concat, List.dropLast_concat]
  cases init with
  | nil =>
    rw [if_pos (show joinPath ([] : List Str) = [] from rfl)]
    show some (crateName ++ str "::" ++ disc ++ '@' :: last) =
      some (crateName ++ ':' :: ':' :: joinPath [disc ++ '@' :: last])
    rw [show joinPath [disc ++ '@' :: last] = disc ++ '@' :: last from rfl, str_sep_eq]
    simp
  | cons x xs =>
    rw [if_neg (joinPath_ne_nil xs (hinit x (List.mem_cons_self _ _)))]
    show some (crateName ++ str "::" ++ joinPath (x :: xs) ++ str "::" ++ disc ++ '@' :: last) =
      some (joinPath (crateName :: ((x :: xs) ++ [disc ++ '@' :: last])))
    rw [joinPath_cons crateName ((x :: xs) ++ [disc ++ '@' :: last]) (by simp)]
    rw [joinPath_append_last (x :: xs) _ (by simp)]
    rw [str_sep_eq]
    simp

theorem qualKeyOf_join (init : List Str) {last : Str} (hlast : ':' ∉ last) (kind : ItemKind) :
    qualKeyOf (joinPath (init ++ [last])) kind =
      joinPath (init ++ [kind_discriminator kind ++ '@' :: last]) := by
  cases init with
  | nil =>
    rw [List.nil_append, show joinPath [last] = last from rfl]
    rw [qualKeyOf, rsplitSep_single hlast]
    rfl
  | cons x xs =>
    rw [qualKeyOf, rsplitSep_join (by simp) hlast]
    show (joinPath (x :: xs) ++ [':', ':']) ++ kind_discriminator kind ++ '@' :: last =
      joinPath ((x :: xs) ++ [kind_discriminator kind ++ '@' :: last])
    rw [joinPath_append_last (x :: xs) _ (by simp)]
    simp

theorem fallbackGo_succeeds {c : Crate} {rest : List Str} {j : Nat} {id : Nat} {it : Item}
    {r : Nat × Option Nat}
    (hl : alookup (build_path_index c.paths) (joinPath (rest.take (j + 1))) = some id)
    (hi : alookup c.items id = some it)
    (ht : traverse c id none (rest.drop (j + 1)) = some r) :
    fallbackGo c rest (j + 1) = some r := by
  unfold fallbackGo
  simp only [hl, hi, ht]

theorem fallbackGo_step_none {c : Crate} {rest : List Str} {j : Nat}
    (hl : alookup (build_path_index c.paths) (joinPath (rest.take (j + 1))) = none) :
    fallbackGo c rest (j + 1) = fallbackGo c rest j := by
  conv_lhs => rw [fallbackGo]
  simp only [hl]

/-- Inversion of a successful resolution: the handle's crate is loaded, and
when the handle carries a parent, the item was the first match for some
segment among the parent's children. -/
theorem resolve_path_inv {nav : List Crate} {input : Str} {h : Handle}
    (hres : resolve_path nav input = some h) :
    ∃ c, nav.get? h.crate = some c ∧
      ∀ pid, h.parent = some pid → ∃ pit seg, alookup c.items pid = some pit ∧
        pit.children.find? (segMatches c seg) = some h.id := by
  unfold resolve_path at hres
  cases hsp : splitPath input with
  | nil => simp [hsp] at hres
  | cons pkg rest =>
    simp only [hsp] at hres
    cases hfc : findCrate nav pkg with
    | none => simp [hfc] at hres
    | some ci =>
      simp only [hfc] at hres
      cases hg : nav[ci]? with
      | none => simp [hg] at hres
      | some c =>
        simp only [List.get?_eq_getElem?, hg] at hres
        cases htr : traverse c c.root none rest with
        | some r =>
          simp only [htr] at hres
          obtain rfl : (⟨ci, r.1, r.2⟩ : Handle) = h := Option.some.inj hres
          refine ⟨c, by rw [List.get?_eq_getElem?]; exact hg, ?_⟩
          intro pid hpid
          exact traverse_parent_good (by rw [← Prod.mk.eta (p := r)] at htr; exact htr)
            pid hpid
        | none =>
          simp only [htr] at hres
          cases hfb : fallbackGo c rest rest.length with
          | none => simp [hfb] at hres
          | some r =>
            simp only [hfb] at hres
            obtain rfl : (⟨ci, r.1, r.2⟩ : Handle) = h := Option.some.inj hres
            refine ⟨c, by rw [List.get?_eq_getElem?]; exact hg, ?_⟩
            intro pid hpid
            obtain ⟨start, segs, htr2⟩ := fallbackGo_from_traverse c rest rest.length hfb
            exact traverse_parent_good (by rw [← Prod.mk.eta (p := r)] at htr2; exact htr2)
              pid hpid

/-- Evaluate `resolve_path` once the package split, the crate lookup and the
document fetch are known. -/
theorem resolve_path_eval {nav : List Crate} {input : Str} {pkg : Str} {rest : List Str}
    {ci : Nat} {c : Crate}
    (hsp : splitPath input = pkg :: rest) (hfc : findCrate nav pkg = some ci)
    (hg : nav.get? ci = some c) :
    resolve_path nav input =
      match traverse c c.root none rest with
      | some r => some ⟨ci, r.1, r.2⟩
      | none =>
        match fallbackGo c rest rest.length with
        | some r => some ⟨ci, r.1, r.2⟩
        | none => none := by
  rw [List.get?_eq_getElem?] at hg
  unfold resolve_path
  simp only [hsp, hfc, List.get?_eq_getElem?, hg]

/-- One traversal step through a single segment whose first match among the
parent's children is known. -/
theorem traverse_single_seg {c : Crate} {pid : Nat} {pit : Item} {w : Str} {hid : Nat}
    (hpit : alookup c.items pid = some pit)
    (hfind : pit.children.find? (segMatches c w) = some hid) (par : Option Nat) :
    traverse c pid par [w] = some (hid, some pid) := by
  show traverse c pid par (w :: []) = _
  simp only [traverse, hpit, hfind]

theorem joinPath_no_at {l : List Str} (h : ∀ seg ∈ l, '@' ∉ seg) : '@' ∉ joinPath l := by
  rw [mem_joinPath_iff (by decide)]
  rintro ⟨x, hx, hcx⟩
  exact h x hx hcx

/-- A resolvable handle with a parent context: the item was the first match
among the parent's children for some segment, hence — by first-match
stability — also for its own fully discriminated segment. -/
theorem resolvable_parent_find {nav : List Crate} {h : Handle} (hres : Resolvable nav h)
    {c : Crate} (hc : nav.get? h.crate = some c) {pid : Nat} (hpid : h.parent = some pid)
    {pit : Item} (hpit : alookup c.items pid = some pit)
    {it : Item} (hit : alookup c.items h.id = some it) {nm : Str} (hname : it.name = some nm) :
    pit.children.find? (segMatches c (kind_discriminator it.kind ++ '@' :: nm)) = some h.id := by
  obtain ⟨input, hinput⟩ := hres
  obtain ⟨c', hc', hpar⟩ := resolve_path_inv hinput
  obtain rfl : c' = c := Option.some.inj (hc'.symm.trans hc)
  obtain ⟨pit', seg, hpit', hfind⟩ := hpar pid hpid
  obtain rfl : pit' = pit := Option.some.inj (hpit'.symm.trans hpit)
  exact find?_segMatches_stable hit hname hfind

/-- The common skeleton of the round-trip argument: once the discriminated
path splits as the crate name followed by `rest`, it suffices that every
successful traversal of `rest` lands on the item and that, should traversal
fail, the reverse-index fallback produces it. -/
theorem round_trip_core {nav : List Crate} {s : Str} {rest : List Str} {ci : Nat} {c : Crate}
    {hid : Nat}
    (hsp : splitPath s = c.name :: rest)
    (hfc : findCrate nav c.name = some ci)
    (hg : nav.get? ci = some c)
    (htrav : ∀ r, traverse c c.root none rest = some r → r.1 = hid)
    (hfb : traverse c c.root none rest = none →
      ∃ r, fallbackGo c rest rest.length = some r ∧ r.1 = hid) :
    ∃ h2, resolve_path nav s = some h2 ∧ h2.crate = ci ∧ h2.id = hid := by
  cases htr : traverse c c.root none rest with
  | some r =>
    refine ⟨⟨ci, r.1, r.2⟩, ?_, rfl, htrav r htr⟩
    rw [resolve_path_eval hsp hfc hg, htr]
  | none =>
    obtain ⟨r, hr, hrid⟩ := hfb htr
    refine ⟨⟨ci, r.1, r.2⟩, ?_, rfl, hrid⟩
    rw [resolve_path_eval hsp hfc hg, htr, hr]

/-- C1 (amended): in a well-formed navigator, for every resolvable handle
whose `discriminated_path` is `some s`, resolving `s` returns a handle for
the same document and item — the `DocRef` equality of the round-trip law —
provided the item is deep enough for the index to see it: its path summary
has at least two segments, or (for an item missing from `paths`) its
parent's summary has at least two segments and the item's own discriminated
key does not collide with an entry of the reverse path index.  The law is
not unconditional: `resolve_path_round_trip_fails_on_crate_root` exhibits a
resolvable crate-root handle whose discriminated path does not resolve. -/
theorem resolve_path_discriminated_path_round_trip
    {nav : List Crate} (wf : NavWF nav) {h : Handle}
    (hres : Resolvable nav h) {c : Crate} (hc : nav.get? h.crate = some c)
    {s : Str} (hdp : dpOfHandle nav h = some s)
    (hdeep : ∀ sum, alookup c.paths h.id = some sum → 2 ≤ sum.path.length)
    (hpdeep : ∀ pid ps, alookup c.paths h.id = none → h.parent = some pid →
      alookup c.paths pid = some ps → 2 ≤ ps.path.length)
    (hshadow : ∀ pid ps it nm, alookup c.paths h.id = none → h.parent = some pid →
      alookup c.paths pid = some ps → alookup c.items h.id = some it → it.name = some nm →
      alookup (build_path_index c.paths)
        (joinPath (ps.path.tail ++ [kind_discriminator it.kind ++ '@' :: nm])) = none) :
    ∃ h2, resolve_path nav s = some h2 ∧ h2.crate = h.crate ∧ h2.id = h.id := by
  have cwf : CrateWF c := wf.crates c (List.get?_mem hc)
  have hfc : findCrate nav c.name = some h.crate := findCrate_self nav wf.namesDisj h.crate c hc
  unfold dpOfHandle drOfHandle at hdp
  simp only [hc] at hdp
  cases hit : alookup c.items h.id with
  | none => simp [hit] at hdp
  | some it =>
    simp only [hit, Option.some_bind] at hdp
    cases hsum : alookup c.paths h.id with
    | some s0 =>
      -- The item has a path summary: the summary branch of
      -- `discriminated_path` decides.
      simp only [discriminated_path, hsum] at hdp
      have hmem : (h.id, s0) ∈ c.paths := alookup_mem hsum
      have h2len : 2 ≤ s0.path.length := hdeep s0 hsum
      have hkA : it.kind = s0.kind := cwf.kindAgree (h.id, s0) hmem it hit
      obtain ⟨p0, tail, hpath⟩ : ∃ p0 tail, s0.path = p0 :: tail := by
        cases hp : s0.path with
        | nil => rw [hp] at h2len; simp at h2len
        | cons a b => exact ⟨a, b, rfl⟩
      have htne : tail ≠ [] := by
        intro hte
        rw [hpath, hte] at h2len
        simp at h2len
      obtain ⟨init, last, htail⟩ : ∃ init last, tail = init ++ [last] :=
        ⟨tail.dropLast, tail.getLast htne, (List.dropLast_append_getLast htne).symm⟩
      have htailClean : ∀ seg ∈ tail, SegClean seg := fun seg hseg =>
        cwf.pathSegsClean (h.id, s0) hmem seg (by rw [hpath]; exact List.mem_cons_of_mem _ hseg)
      have hinitClean : ∀ seg ∈ init, SegClean seg := fun seg hseg =>
        htailClean seg (by rw [htail]; exact List.mem_append_left _ hseg)
      have hlastClean : SegClean last :=
        htailClean last (by rw [htail]; exact List.mem_append_right _ (List.mem_singleton.mpr rfl))
      have hgk : groupKeyOf s0 = some (joinPath tail) :=
        groupKeyOf_mk (cwf.localPaths (h.id, s0) hmem) hpath htne
      have hseq : s = joinPath (c.name ::
          (init ++ [kind_discriminator s0.kind ++ '@' :: last])) := by
        rw [hpath, htail] at hdp
        rw [dpFromSummary_eq_join c.name _ p0 last init
          (fun seg hseg => (hinitClean seg hseg).1)] at hdp
        rw [hkA] at hdp
        exact (Option.some.inj hdp).symm
      have hsp : splitPath s =
          c.name :: (init ++ [kind_discriminator s0.kind ++ '@' :: last]) := by
        rw [hseq]
        apply splitPath_joinPath
        · simp
        · intro x hx
          rcases List.mem_cons.mp hx with rfl | hx
          · exact cwf.nameClean.2.1
          · rcases List.mem_append.mp hx with hx | hx
            · exact (hinitClean x hx).2.1
            · rw [List.mem_singleton.mp hx]
              exact discSeg_no_colon hlastClean.2.1
      have hdsegs : discSegsOf s0 =
          init ++ [kind_discriminator s0.kind ++ '@' :: last] := by
        unfold discSegsOf
        rw [hpath, List.tail_cons, htail, List.dropLast_concat, List.getLast?_concat]
        rfl
      apply round_trip_core hsp hfc hc
      · intro r htr
        have hcoh := cwf.coherent1 (h.id, s0) hmem (joinPath tail) hgk
        simp only [hdsegs] at hcoh
        exact idMatches_some hcoh htr
      · intro _
        refine ⟨(h.id, none), ?_, rfl⟩
        have hlen : (init ++ [kind_discriminator s0.kind ++ '@' :: last]).length
            = init.length + 1 := by simp
        have htake : (init ++ [kind_discriminator s0.kind ++ '@' :: last]).take
            (init.length + 1) = init ++ [kind_discriminator s0.kind ++ '@' :: last] := by
          rw [← hlen, List.take_length]
        have hql : qualKeyOf (joinPath (init ++ [last])) s0.kind
            = joinPath (init ++ [kind_discriminator s0.kind ++ '@' :: last]) :=
          qualKeyOf_join init hlastClean.2.1 s0.kind
        have hl : alookup (build_path_index c.paths)
            (joinPath ((init ++ [kind_discriminator s0.kind ++ '@' :: last]).take
              (init.length + 1))) = some h.id := by
          rw [htake, ← hql, ← htail]
          exact alookup_build_qualified cwf.pathSegsClean cwf.discKeyInj hmem hgk
        have ht : traverse c h.id none
            ((init ++ [kind_discriminator s0.kind ++ '@' :: last]).drop (init.length + 1))
            = some (h.id, none) := by
          rw [← hlen, List.drop_length]
          rfl
        rw [hlen]
        exact fallbackGo_succeeds hl hit ht
    | none =>
      -- No summary: the parent fallback of `discriminated_path` decides.
      simp only [discriminated_path, hsum] at hdp
      cases hpar : h.parent with
      | none => rw [hpar] at hdp; simp at hdp
      | some pid =>
        rw [hpar] at hdp
        simp only [Option.some_bind] at hdp
        cases hpitl : alookup c.items pid with
        | none =>
          unfold parentInfoOf at hdp
          simp [hpitl] at hdp
        | some pit =>
          have hpinfo : parentInfoOf c pid = some ⟨c.name, alookup c.paths pid,
              (build_path_index c.paths).map Prod.fst, pit.kind⟩ := by
            unfold parentInfoOf
            rw [hpitl]
          simp only [hpinfo] at hdp
          cases hname : it.name with
          | none => simp [hname] at hdp
          | some nm =>
            simp only [hname] at hdp
            cases hpsum : alookup c.paths pid with
            | none =>
              unfold dpFallback dpFastPath at hdp
              simp [hpsum] at hdp
            | some ps =>
              simp only [hpsum] at hdp
              have hpmem : (pid, ps) ∈ c.paths := alookup_mem hpsum
              have hp2len : 2 ≤ ps.path.length := hpdeep pid ps hsum hpar hpsum
              have hpkA : pit.kind = ps.kind := cwf.kindAgree (pid, ps) hpmem pit hpitl
              have hitmem : (h.id, it) ∈ c.items := alookup_mem hit
              have hnmClean : SegClean nm := cwf.itemNamesClean (h.id, it) hitmem nm hname
              obtain ⟨q0, ptail, hppath⟩ : ∃ q0 ptail, ps.path = q0 :: ptail := by
                cases hp : ps.path with
                | nil => rw [hp] at hp2len; simp at hp2len
                | cons a b => exact ⟨a, b, rfl⟩
              have hptne : ptail ≠ [] := by
                intro hte
                rw [hppath, hte] at hp2len
                simp at hp2len
              obtain ⟨pinit, plast, hptail⟩ : ∃ pinit plast, ptail = pinit ++ [plast] :=
                ⟨ptail.dropLast, ptail.getLast hptne,
                  (List.dropLast_append_getLast hptne).symm⟩
              have hptailClean : ∀ seg ∈ ptail, SegClean seg := fun seg hseg =>
                cwf.pathSegsClean (pid, ps) hpmem seg
                  (by rw [hppath]; exact List.mem_cons_of_mem _ hseg)
              have hpinitClean : ∀ seg ∈ pinit, SegClean seg := fun seg hseg =>
                hptailClean seg (by rw [hptail]; exact List.mem_append_left _ hseg)
              have hplastClean : SegClean plast :=
                hptailClean plast (by
                  rw [hptail]
                  exact List.mem_append_right _ (List.mem_singleton.mpr rfl))
              have hpgk : groupKeyOf ps = some (joinPath ptail) :=
                groupKeyOf_mk (cwf.localPaths (pid, ps) hpmem) hppath hptne
              have hfindw : pit.children.find?
                  (segMatches c (kind_discriminator it.kind ++ '@' :: nm)) = some h.id :=
                resolvable_parent_find hres hc hpar hpitl hit hname
              by_cases hmemk : joinPath ptail ∈ (build_path_index c.paths).map Prod.fst
              · -- The parent's unqualified key is indexed: the fast path fires.
                have hjne : joinPath ptail ≠ [] := by
                  cases hpt : ptail with
                  | nil => exact absurd hpt hptne
                  | cons x xs =>
                    exact joinPath_ne_nil xs
                      (hptailClean x (by rw [hpt]; exact List.mem_cons_self _ _)).1
                have hsfast : dpFastPath it.kind nm ⟨c.name, some ps,
                    (build_path_index c.paths).map Prod.fst, pit.kind⟩ =
                    some (joinPath (c.name ::
                      (ptail ++ [kind_discriminator it.kind ++ '@' :: nm]))) := by
                  unfold dpFastPath
                  simp only [hppath]
                  rw [if_pos hmemk, if_neg hjne]
                  rw [joinPath_cons c.name
                    (ptail ++ [kind_discriminator it.kind ++ '@' :: nm]) (by simp)]
                  rw [joinPath_append_last ptail _ hptne, str_sep_eq]
                  simp
                have hseq : s = joinPath (c.name ::
                    (ptail ++ [kind_discriminator it.kind ++ '@' :: nm])) := by
                  unfold dpFallback at hdp
                  simp only [hsfast] at hdp
                  exact (Option.some.inj hdp).symm
                have hsp : splitPath s = c.name ::
                    (ptail ++ [kind_discriminator it.kind ++ '@' :: nm]) := by
                  rw [hseq]
                  apply splitPath_joinPath
                  · simp
                  · intro x hx
                    rcases List.mem_cons.mp hx with rfl | hx
                    · exact cwf.nameClean.2.1
                    · rcases List.mem_append.mp hx with hx | hx
                      · exact (hptailClean x hx).2.1
                      · rw [List.mem_singleton.mp hx]
                        exact discSeg_no_colon hnmClean.2.1
                apply round_trip_core hsp hfc hc
                · intro r htr
                  rw [traverse_append] at htr
                  cases htr0 : traverse c c.root none ptail with
                  | none => rw [htr0] at htr; simp at htr
                  | some r0 =>
                    rw [htr0, Option.some_bind] at htr
                    have hr0 : r0.1 = pid := by
                      have hck : containsKey (build_path_index c.paths)
                          (joinPath ptail) = true := containsKey_iff.mpr hmemk
                      have hcoh := cwf.coherent2 (pid, ps) hpmem (joinPath ptail) hpgk hck
                      simp only [hppath, List.tail_cons] at hcoh
                      exact idMatches_some hcoh htr0
                    rw [hr0] at htr
                    rw [traverse_single_seg hpitl hfindw r0.2] at htr
                    obtain rfl := Option.some.inj htr
                    rfl
                · intro _
                  refine ⟨(h.id, some pid), ?_, rfl⟩
                  have hsh := hshadow pid ps it nm hsum hpar hpsum hit hname
                  rw [hppath, List.tail_cons] at hsh
                  have hlen : (ptail ++ [kind_discriminator it.kind ++ '@' :: nm]).length
                      = ptail.length + 1 := by simp
                  have htake1 : (ptail ++ [kind_discriminator it.kind ++ '@' :: nm]).take
                      (ptail.length + 1)
                      = ptail ++ [kind_discriminator it.kind ++ '@' :: nm] := by
                    rw [← hlen, List.take_length]
                  have hstep1 : fallbackGo c
                      (ptail ++ [kind_discriminator it.kind ++ '@' :: nm])
                      (ptail.length + 1) = fallbackGo c
                      (ptail ++ [kind_discriminator it.kind ++ '@' :: nm]) ptail.length := by
                    apply fallbackGo_step_none
                    rw [htake1]
                    exact hsh
                  have hptlen : ptail.length = pinit.length + 1 := by rw [hptail]; simp
                  have htake2 : (ptail ++ [kind_discriminator it.kind ++ '@' :: nm]).take
                      (pinit.length + 1) = ptail := by
                    rw [← hptlen]
                    exact List.take_left _ _
                  obtain ⟨x, hx⟩ : ∃ x, alookup (build_path_index c.paths)
                      (joinPath ptail) = some x :=
                    Option.isSome_iff_exists.mp (alookup_isSome_iff.mpr hmemk)
                  have hxid : x = pid := alookup_build_unqualified
                    (joinPath_no_at (fun seg hseg => (hptailClean seg hseg).2.2))
                    hx hpmem hpgk
                  have hl2 : alookup (build_path_index c.paths)
                      (joinPath ((ptail ++ [kind_discriminator it.kind ++ '@' :: nm]).take
                        (pinit.length + 1))) = some pid := by
                    rw [htake2, hx, hxid]
                  have hdrop2 : (ptail ++ [kind_discriminator it.kind ++ '@' :: nm]).drop
                      (pinit.length + 1) = [kind_discriminator it.kind ++ '@' :: nm] := by
                    rw [← hptlen]
                    exact List.drop_left _ _
                  have ht2 : traverse c pid none
                      ((ptail ++ [kind_discriminator it.kind ++ '@' :: nm]).drop
                        (pinit.length + 1)) = some (h.id, some pid) := by
                    rw [hdrop2]
                    exact traverse_single_seg hpitl hfindw none
                  have hstep2 : fallbackGo c
                      (ptail ++ [kind_discriminator it.kind ++ '@' :: nm])
                      (pinit.length + 1) = some (h.id, some pid) :=
                    fallbackGo_succeeds hl2 hpitl ht2
                  rw [hlen, hstep1, hptlen, hstep2]
              · -- No unqualified key: the parent's own summary branch is prefixed.
                have hfastnone : dpFastPath it.kind nm ⟨c.name, some ps,
                    (build_path_index c.paths).map Prod.fst, pit.kind⟩ = none := by
                  unfold dpFastPath
                  simp only [hppath]
                  rw [if_neg hmemk]
                have hdp3 : (dpFromSummary c.name (kind_discriminator pit.kind) ps.path).map
                    (fun pp => pp ++ str "::" ++ kind_discriminator it.kind ++ '@' :: nm)
                    = some s := by
                  unfold dpFallback at hdp
                  simp only [hfastnone] at hdp
                  exact hdp
                have hpeq : dpFromSummary c.name (kind_discriminator pit.kind) ps.path
                    = some (joinPath (c.name ::
                      (pinit ++ [kind_discriminator ps.kind ++ '@' :: plast]))) := by
                  rw [hppath, hptail]
                  rw [dpFromSummary_eq_join c.name _ q0 plast pinit
                    (fun seg hseg => (hpinitClean seg hseg).1)]
                  rw [hpkA]
                have hseq : s = joinPath ((c.name ::
                    (pinit ++ [kind_discriminator ps.kind ++ '@' :: plast])) ++
                    [kind_discriminator it.kind ++ '@' :: nm]) := by
                  rw [hpeq] at hdp3
                  simp only [Option.map_some'] at hdp3
                  rw [← Option.some.inj hdp3]
                  rw [joinPath_append_last (c.name ::
                    (pinit ++ [kind_discriminator ps.kind ++ '@' :: plast])) _ (by simp)]
                  rw [str_sep_eq]
                  simp
                have hsp : splitPath s = c.name ::
                    ((pinit ++ [kind_discriminator ps.kind ++ '@' :: plast]) ++
                      [kind_discriminator it.kind ++ '@' :: nm]) := by
                  rw [hseq]
                  apply splitPath_joinPath
                  · simp
                  · intro x hx
                    rcases List.mem_append.mp hx with hx | hx
                    · rcases List.mem_cons.mp hx with rfl | hx
                      · exact cwf.nameClean.2.1
                      · rcases List.mem_append.mp hx with hx | hx
                        · exact (hpinitClean x hx).2.1
                        · rw [List.mem_singleton.mp hx]
                          exact discSeg_no_colon hplastClean.2.1
                    · rw [List.mem_singleton.mp hx]
                      exact discSeg_no_colon hnmClean.2.1
                have hdsegs : discSegsOf ps =
                    pinit ++ [kind_discriminator ps.kind ++ '@' :: plast] := by
                  unfold discSegsOf
                  rw [hppath, List.tail_cons, hptail, List.dropLast_concat,
                    List.getLast?_concat]
                  rfl
                apply round_trip_core hsp hfc hc
                · intro r htr
                  rw [traverse_append] at htr
                  cases htr0 : traverse c c.root none
                      (pinit ++ [kind_discriminator ps.kind ++ '@' :: plast]) with
                  | none => rw [htr0] at htr; simp at htr
                  | some r0 =>
                    rw [htr0, Option.some_bind] at htr
                    have hr0 : r0.1 = pid := by
                      have hcoh := cwf.coherent1 (pid, ps) hpmem (joinPath ptail) hpgk
                      simp only [hdsegs] at hcoh
                      exact idMatches_some hcoh htr0
                    rw [hr0] at htr
                    rw [traverse_single_seg hpitl hfindw r0.2] at htr
                    obtain rfl := Option.some.inj htr
                    rfl
                · intro _
                  refine ⟨(h.id, some pid), ?_, rfl⟩
                  have hpinit0 : ((pinit.map fun x => x.count '@').sum) = 0 := by
                    apply List.sum_eq_zero
                    intro x hx
                    obtain ⟨seg, hseg, rfl⟩ := List.mem_map.mp hx
                    exact count_eq_zero_of_not_mem_at (hpinitClean seg hseg).2.2
                  have hcnt : (joinPath
                      ((pinit ++ [kind_discriminator ps.kind ++ '@' :: plast]) ++
                        [kind_discriminator it.kind ++ '@' :: nm])).count '@' = 2 := by
                    rw [count_joinPath]
                    simp [hpinit0, count_discSeg hplastClean.2.2, count_discSeg hnmClean.2.2]
                  have hl1 : alookup (build_path_index c.paths)
                      (joinPath ((pinit ++ [kind_discriminator ps.kind ++ '@' :: plast]) ++
                        [kind_discriminator it.kind ++ '@' :: nm])) = none := by
                    cases hlk : alookup (build_path_index c.paths)
                        (joinPath ((pinit ++ [kind_discriminator ps.kind ++ '@' :: plast]) ++
                          [kind_discriminator it.kind ++ '@' :: nm])) with
                    | none => rfl
                    | some v =>
                      have hle := alookup_build_count_at cwf.pathSegsClean hlk
                      rw [hcnt] at hle
                      exact absurd hle (by decide)
                  have hlen : ((pinit ++ [kind_discriminator ps.kind ++ '@' :: plast]) ++
                      [kind_discriminator it.kind ++ '@' :: nm]).length
                      = pinit.length + 1 + 1 := by simp
                  have htake1 : ((pinit ++ [kind_discriminator ps.kind ++ '@' :: plast]) ++
                      [kind_discriminator it.kind ++ '@' :: nm]).take (pinit.length + 1 + 1)
                      = (pinit ++ [kind_discriminator ps.kind ++ '@' :: plast]) ++
                        [kind_discriminator it.kind ++ '@' :: nm] := by
                    rw [← hlen, List.take_length]
                  have hstep1 : fallbackGo c
                      ((pinit ++ [kind_discriminator ps.kind ++ '@' :: plast]) ++
                        [kind_discriminator it.kind ++ '@' :: nm]) (pinit.length + 1 + 1)
                      = fallbackGo c
                        ((pinit ++ [kind_discriminator ps.kind ++ '@' :: plast]) ++
                          [kind_discriminator it.kind ++ '@' :: nm]) (pinit.length + 1) := by
                    apply fallbackGo_step_none
                    rw [htake1]
                    exact hl1
                  have hlen2 : (pinit ++ [kind_discriminator ps.kind ++ '@' :: plast]).length
                      = pinit.length + 1 := by simp
                  have htake2 : ((pinit ++ [kind_discriminator ps.kind ++ '@' :: plast]) ++
                      [kind_discriminator it.kind ++ '@' :: nm]).take (pinit.length + 1)
                      = pinit ++ [kind_discriminator ps.kind ++ '@' :: plast] := by
                    rw [← hlen2]
                    exact List.take_left _ _
                  have hql : qualKeyOf (joinPath (pinit ++ [plast])) ps.kind
                      = joinPath (pinit ++ [kind_discriminator ps.kind ++ '@' :: plast]) :=
                    qualKeyOf_join pinit hplastClean.2.1 ps.kind
                  have hl2 : alookup (build_path_index c.paths)
                      (joinPath (((pinit ++ [kind_discriminator ps.kind ++ '@' :: plast]) ++
                        [kind_discriminator it.kind ++ '@' :: nm]).take (pinit.length + 1)))
                      = some pid := by
                    rw [htake2, ← hql, ← hptail]
                    exact alookup_build_qualified cwf.pathSegsClean cwf.discKeyInj hpmem hpgk
                  have hdrop2 : ((pinit ++ [kind_discriminator ps.kind ++ '@' :: plast]) ++
                      [kind_discriminator it.kind ++ '@' :: nm]).drop (pinit.length + 1)
                      = [kind_discriminator it.kind ++ '@' :: nm] := by
                    rw [← hlen2]
                    exact List.drop_left _ _
                  have ht2 : traverse c pid none
                      (((pinit ++ [kind_discriminator ps.kind ++ '@' :: plast]) ++
                        [kind_discriminator it.kind ++ '@' :: nm]).drop (pinit.length + 1))
                      = some (h.id, some pid) := by
                    rw [hdrop2]
                    exact traverse_single_seg hpitl hfindw none
                  have hstep2 : fallbackGo c
                      ((pinit ++ [kind_discriminator ps.kind ++ '@' :: plast]) ++
                        [kind_discriminator it.kind ++ '@' :: nm]) (pinit.length + 1)
                      = some (h.id, some pid) :=
                    fallbackGo_succeeds hl2 hpitl ht2
                  rw [hlen, hstep1, hstep2]

/-- A one-crate navigator with a root module `pkg` and a struct `pkg::S`,
exactly as a minimal rustdoc export lays them out. -/
def crate1 : Crate :=
  { name := str "pkg", root := 0,
    items := [(0, { name := some (str "pkg"), kind := .Module, children := [1] }),
              (1, { name := some (str "S"), kind := .Struct, children := [] })],
    paths := [(0, ⟨0, [str "pkg"], .Module⟩), (1, ⟨0, [str "pkg", str "S"], .Struct⟩)] }

def nav1 : List Crate := [crate1]

theorem crate1_wf : CrateWF crate1 := by
  refine ⟨?_, ?_, ?_, ?_, ?_, ?_, ?_, ?_⟩
  · decide
  · intro p hp n hn
    rcases List.mem_cons.mp hp with rfl | hp
    · obtain rfl := Option.some.inj hn
      decide
    · obtain rfl := List.mem_singleton.mp hp
      obtain rfl := Option.some.inj hn
      decide
  · intro p hp seg hseg
    rcases List.mem_cons.mp hp with rfl | hp
    · obtain rfl := List.mem_singleton.mp hseg
      decide
    · obtain rfl := List.mem_singleton.mp hp
      rcases List.mem_cons.mp hseg with rfl | hseg
      · decide
      · obtain rfl := List.mem_singleton.mp hseg
        decide
  · intro p hp
    rcases List.mem_cons.mp hp with rfl | hp
    · rfl
    · obtain rfl := List.mem_singleton.mp hp
      rfl
  · intro p hp it hit
    rcases List.mem_cons.mp hp with rfl | hp
    · obtain rfl := Option.some.inj hit
      rfl
    · obtain rfl := List.mem_singleton.mp hp
      obtain rfl := Option.some.inj hit
      rfl
  · intro p q hp hq kp kq hkp hkq hkeq hdisc
    rcases List.mem_cons.mp hp with rfl | hp
    · simp [groupKeyOf] at hkp
    · obtain rfl := List.mem_singleton.mp hp
      rcases List.mem_cons.mp hq with rfl | hq
      · simp [groupKeyOf] at hkq
      · obtain rfl := List.mem_singleton.mp hq
        rfl
  · intro p hp k hk
    rcases List.mem_cons.mp hp with rfl | hp
    · simp [groupKeyOf] at hk
    · obtain rfl := List.mem_singleton.mp hp
      decide
  · intro p hp k hk hck
    rcases List.mem_cons.mp hp with rfl | hp
    · simp [groupKeyOf] at hk
    · obtain rfl := List.mem_singleton.mp hp
      decide

theorem nav1_wf : NavWF nav1 := by
  constructor
  · simp [nav1]
  · intro c hcm
    obtain rfl := List.mem_singleton.mp hcm
    exact crate1_wf

/-- Witness for the amended C1 theorem: in `nav1`, the struct handle
resolved from `"pkg::S"` has discriminated path `"pkg::struct@S"`, and the
theorem yields a handle for the same crate and item when that path is
resolved. -/
theorem resolve_path_discriminated_path_round_trip_witness :
    ∃ h2, resolve_path nav1 (str "pkg::struct@S") = some h2 ∧
      h2.crate = 0 ∧ h2.id = 1 := by
  exact @resolve_path_discriminated_path_round_trip nav1 nav1_wf ⟨0, 1, some 0⟩
    ⟨str "pkg::S", by decide⟩ crate1 (by decide) (str "pkg::struct@S") (by decide)
    (fun sum hsum => by
      obtain rfl := Option.some.inj hsum
      decide)
    (fun pid ps hnone _ _ => absurd hnone (by decide))
    (fun pid ps it nm hnone _ _ _ _ => absurd hnone (by decide))

end Ferritin
